import Mathlib

/-!
Verification development for the netmon-pi repository.

The program under study (src/scanner/scanner.py, src/scripts/validate_scan.py)
parses the textual output of an ARP scan tool with the Python regex

  ^(\d{1,3}\.\d{1,3}\.\d{1,3}\.\d{1,3})\s+([0-9a-fA-F:]{17})\s+(.+)$   (MULTILINE)

skips lines whose vendor text contains "(DUP:", normalises the vendor text,
deduplicates records by the (ip, lowercased mac) key keeping the first
occurrence, and sorts the result by the numeric 4-tuple of IP octets.
A separate validator checks the persisted JSON structure.

The embedding below works on `List Char` and models the ASCII behaviour of
the Python regex engine for this specific pattern, backtracking included:

* `^` only matches at the start of the text or just after a newline
  (MULTILINE), `$` at the end of the text or just before a newline;
* `\d{1,3}` followed by `\.` (or, for the last octet, by `\s+`) is
  equivalent to taking the maximal digit run, which must have length 1..3,
  because giving a digit back can never make `\.` or `\s` match;
* `\s+` followed by the MAC class is equivalent to the maximal whitespace
  run, because the MAC class contains no whitespace characters;
* `\s+` followed by `(.+)$` does backtrack: the whitespace run gives
  characters back one at a time until `.+` can match a non-empty run of
  non-newline characters ending at a line end.  `matchTail` implements the
  result of that backtracking.
-/

/-- Python `\s` for ASCII text: space, tab, newline, carriage return,
vertical tab, form feed. -/
def isPyWS (c : Char) : Bool :=
  c == ' ' || c == '\t' || c == '\n' || c == '\r' || c == '\x0b' || c == '\x0c'

/-- The character is a newline. -/
def isNl (c : Char) : Bool := c == '\n'

/-- The character is not a newline (what `.` matches without DOTALL). -/
def notNl (c : Char) : Bool := !(c == '\n')

/-- The 22 characters of the regex class `[0-9a-fA-F]`. -/
def hexChars : List Char :=
  ['0', '1', '2', '3', '4', '5', '6', '7', '8', '9',
   'A', 'B', 'C', 'D', 'E', 'F',
   'a', 'b', 'c', 'd', 'e', 'f']

/-- Membership in the regex class `[0-9a-fA-F]`. -/
def hexDigit (c : Char) : Bool := hexChars.contains c

/-- Membership in the regex class `[0-9a-fA-F:]` (the MAC-address class). -/
def isMacChar (c : Char) : Bool := hexDigit c || c == ':'

/-- One group `\d{1,3}` of the IP part of the pattern, in a context where
the following pattern element cannot match a digit: the maximal digit run,
which must be non-empty and at most 3 characters long. -/
def matchOctet (s : List Char) : Option (List Char × List Char) :=
  if (s.takeWhile Char.isDigit).length = 0 ∨ 3 < (s.takeWhile Char.isDigit).length
  then none
  else some (s.takeWhile Char.isDigit, s.dropWhile Char.isDigit)

/-- Consume one expected literal character. -/
def expectChar (c : Char) : List Char → Option (List Char)
  | [] => none
  | x :: xs => if x = c then some xs else none

/-- Group 1 of the pattern: `\d{1,3}\.\d{1,3}\.\d{1,3}\.\d{1,3}`.
Returns the matched characters (dots included) and the rest. -/
def parseQuad (s : List Char) : Option (List Char × List Char) :=
  (matchOctet s).bind fun ar =>
  (expectChar '.' ar.2).bind fun r2 =>
  (matchOctet r2).bind fun br =>
  (expectChar '.' br.2).bind fun r4 =>
  (matchOctet r4).bind fun cr =>
  (expectChar '.' cr.2).bind fun r6 =>
  (matchOctet r6).map fun dr =>
    (ar.1 ++ '.' :: br.1 ++ '.' :: cr.1 ++ '.' :: dr.1, dr.2)

/-- The tail `\s+(.+)$` of the pattern, with Python backtracking semantics.
Returns (whitespace actually kept by `\s+`, the `.+` group, rest after the
match).  If any non-whitespace character follows the maximal whitespace run
then `.+` starts there (that character is never a newline, since newlines
are whitespace).  Otherwise the run gives characters back until `.+` can
match: the vendor group becomes the last non-newline character of the run,
and at least one whitespace character must remain before it. -/
def matchTail (s : List Char) : Option (List Char × List Char × List Char) :=
  if s.takeWhile isPyWS = [] then none
  else if s.dropWhile isPyWS = [] then
    match (s.takeWhile isPyWS).reverse.dropWhile isNl with
    | c :: c2 :: restA =>
      some ((c2 :: restA).reverse, [c],
        ((s.takeWhile isPyWS).reverse.takeWhile isNl).reverse)
    | _ => none
  else
    some (s.takeWhile isPyWS,
      (s.dropWhile isPyWS).takeWhile notNl,
      (s.dropWhile isPyWS).dropWhile notNl)

/-- One raw regex match: the three groups plus the whitespace separators
actually consumed, so that the full matched segment can be reconstructed. -/
structure RawMatch where
  ipCs : List Char
  ws1 : List Char
  macCs : List Char
  ws2 : List Char
  vendorCs : List Char
deriving DecidableEq, Repr

/-- The full segment of text consumed by a match. -/
def RawMatch.seg (m : RawMatch) : List Char :=
  m.ipCs ++ m.ws1 ++ m.macCs ++ m.ws2 ++ m.vendorCs

/-- Attempt to match the whole pattern at the current position (which the
caller guarantees to be a line start).  Returns the match and the rest of
the text after the match. -/
def matchAt (s : List Char) : Option (RawMatch × List Char) :=
  (parseQuad s).bind fun pr =>
  if (pr.2.takeWhile isPyWS) = [] then none
  else if ((pr.2.dropWhile isPyWS).take 17).length = 17
      ∧ ((pr.2.dropWhile isPyWS).take 17).all isMacChar = true then
    (matchTail ((pr.2.dropWhile isPyWS).drop 17)).map fun tv =>
      ({ ipCs := pr.1, ws1 := pr.2.takeWhile isPyWS,
         macCs := (pr.2.dropWhile isPyWS).take 17,
         ws2 := tv.1, vendorCs := tv.2.1 }, tv.2.2)
  else none

/-- The scan of `re.finditer` for this pattern: scan left to right; at every line start
try `matchAt`; on success continue right after the match, otherwise advance
one character.  Fuel-based so that the kernel can evaluate it; every step
consumes at least one character and one unit of fuel, so any fuel larger
than the length of the text is enough. -/
def findMatchesF : Nat → List Char → Bool → List RawMatch
  | 0, _, _ => []
  | _ + 1, [], _ => []
  | fuel + 1, c :: rest, atStart =>
    if atStart then
      match matchAt (c :: rest) with
      | some (m, r) => m :: findMatchesF fuel r false
      | none => findMatchesF fuel rest (c == '\n')
    else findMatchesF fuel rest (c == '\n')

/-- All matches of the pattern in the text, in order of appearance. -/
def pyMatches (s : List Char) : List RawMatch :=
  findMatchesF (s.length + 1) s true

/-- Python `str.strip()` on ASCII text: drop whitespace from both ends. -/
def pyStrip (l : List Char) : List Char :=
  ((l.dropWhile isPyWS).reverse.dropWhile isPyWS).reverse

/-- The substitution `re.sub(r"\t", " ", v)`: every tab becomes one space. -/
def tabToSpace (l : List Char) : List Char :=
  l.map (fun c => if c = '\t' then ' ' else c)

/-- The substitution `re.sub(r"\([0-9a-fA-F:]{17}\)", "", v)`: remove every parenthesized
17-character MAC-shaped substring, scanning leftmost and non-overlapping.
Fuel-based (a removal skips 19 characters at once). -/
def removeParenMacF : Nat → List Char → List Char
  | 0, l => l
  | _ + 1, [] => []
  | fuel + 1, c :: cs =>
    if c = '(' ∧ (cs.take 17).length = 17 ∧ (cs.take 17).all isMacChar = true
        ∧ (cs.drop 17).head? = some ')' then
      removeParenMacF fuel (cs.drop 18)
    else c :: removeParenMacF fuel cs

/-- Entry point of the paren-MAC removal with enough fuel. -/
def removeParenMac (l : List Char) : List Char :=
  removeParenMacF (l.length + 1) l

/-- The substitution `re.sub(r"\s+", " ", v)`: every maximal whitespace run becomes one
space.  The flag records whether the previous character was whitespace. -/
def collapseAux : List Char → Bool → List Char
  | [], _ => []
  | c :: cs, prevWs =>
    if isPyWS c then
      if prevWs then collapseAux cs true else ' ' :: collapseAux cs true
    else c :: collapseAux cs false

/-- Whitespace-run collapsing, starting outside a run. -/
def collapseWS (l : List Char) : List Char := collapseAux l false

/-- The vendor-cleaning chain of scanner.py lines 97-99, applied to the
already stripped vendor text: tabs to spaces, parenthesized MACs removed,
whitespace runs collapsed, ends trimmed. -/
def cleanVendor (v : List Char) : List Char :=
  pyStrip (collapseWS (removeParenMac (tabToSpace v)))

/-- Python `needle in haystack` on strings: contiguous substring test. -/
def containsSub (pat : List Char) : List Char → Bool
  | [] => pat.isEmpty
  | c :: rest => pat.isPrefixOf (c :: rest) || containsSub pat rest

/-- The skip condition of scanner.py line 93: the stripped vendor text
contains the literal substring "(DUP:". -/
def isDup (m : RawMatch) : Bool :=
  containsSub "(DUP:".toList (pyStrip m.vendorCs)

/-- One parsed device record, as stored in the `seen` dictionary. -/
structure Device where
  ip : List Char
  mac : List Char
  vendor : List Char
deriving DecidableEq, Repr

/-- The device dictionary built from one match: ip as matched, mac
lowercased, vendor stripped then cleaned. -/
def mkDevice (m : RawMatch) : Device :=
  { ip := m.ipCs
    mac := m.macCs.map Char.toLower
    vendor := cleanVendor (pyStrip m.vendorCs) }

/-- The match loop of scanner.py lines 87-107: skip "(DUP:" entries, then
insert into the ordered dictionary unless the (ip, mac) key is already
present.  `acc` is the list of values of `seen` in insertion order. -/
def buildDevices : List RawMatch → List Device → List Device
  | [], acc => acc
  | m :: ms, acc =>
    if isDup m then buildDevices ms acc
    else
      let d := mkDevice m
      if acc.any (fun e => e.ip = d.ip ∧ e.mac = d.mac) then buildDevices ms acc
      else buildDevices ms (acc ++ [d])

/-- Split a character list on a separator character, Python
`str.split(sep)` style (accumulator-based, structurally recursive). -/
def splitOnChAux (sep : Char) : List Char → List Char → List (List Char)
  | [], cur => [cur.reverse]
  | c :: rest, cur =>
    if c = sep then cur.reverse :: splitOnChAux sep rest []
    else splitOnChAux sep rest (c :: cur)

/-- Python `str.split(sep)` for a one-character separator. -/
def splitOnCh (sep : Char) (l : List Char) : List (List Char) :=
  splitOnChAux sep l []

/-- Python `ip.split(".")`. -/
def splitDot (l : List Char) : List (List Char) := splitOnCh '.' l

/-- The lines of a text, split on newline. -/
def linesOf (l : List Char) : List (List Char) := splitOnCh '\n' l

/-- Python `int` on a run of ASCII digits. -/
def charsToNat (l : List Char) : Nat :=
  l.foldl (fun n c => 10 * n + (c.toNat - 48)) 0

/-- The sort key of scanner.py line 111: `tuple(map(int, ip.split(".")))`. -/
def ipKey (ip : List Char) : List Nat :=
  (splitDot ip).map charsToNat

/-- Python tuple comparison (less or equal) on lists of naturals:
lexicographic, a proper prefix being smaller. -/
def natListLe : List Nat → List Nat → Bool
  | [], _ => true
  | _ :: _, [] => false
  | a :: as, b :: bs => if a < b then true else if b < a then false else natListLe as bs

/-- Comparison of two device records by their IP sort key. -/
def devLe (d e : Device) : Bool := natListLe (ipKey d.ip) (ipKey e.ip)

/-- Insert into a sorted list, after any element that does not compare
strictly greater — the insertion position of a stable sort. -/
def orderedInsert (le : Device → Device → Bool) (a : Device) : List Device → List Device
  | [] => [a]
  | b :: l => if le a b then a :: b :: l else b :: orderedInsert le a l

/-- Stable ascending sort.  Python `list.sort` is a stable ascending sort,
and a stable sort by a total preorder has a unique result, so insertion
sort computes exactly the list produced by scanner.py line 111. -/
def insertionSort (le : Device → Device → Bool) : List Device → List Device
  | [] => []
  | a :: l => orderedInsert le a (insertionSort le l)

/-- scanner.py `parse_arp_output`: all matches, the dedup loop, then the
stable sort by the numeric octet tuple. -/
def parse_arp_output (s : List Char) : List Device :=
  insertionSort devLe (buildDevices (pyMatches s) [])

/-! ### The persisted result object and the schema validator -/

/-- A JSON-like value, as far as the two scripts exchange one: strings,
naturals, arrays, objects. -/
inductive JVal where
  | jstr : List Char → JVal
  | jnum : Nat → JVal
  | jarr : List JVal → JVal
  | jobj : List (List Char × JVal) → JVal

/-- Key membership in an object field list (Python `key in dict`). -/
def hasKey (fs : List (List Char × JVal)) (k : List Char) : Bool :=
  fs.any (fun p => p.1 = k)

/-- First value bound to a key (Python dict lookup; keys are unique in the
dictionaries this program builds). -/
def lookupKey (fs : List (List Char × JVal)) (k : List Char) : Option JVal :=
  (fs.find? (fun p => p.1 = k)).map (fun p => p.2)

/-- An ASCII apostrophe, used inside the validator messages. -/
def squote : Char := Char.ofNat 39

/-- Decimal digits of a natural number. -/
def natToChars (n : Nat) : List Char := Nat.toDigits 10 n

/-- validate_scan.py line 33: `f"Missing required field: {field}"` with the
field name quoted. -/
def missingFieldMsg (f : List Char) : List Char :=
  "Missing required field: ".toList ++ squote :: f ++ [squote]

/-- validate_scan.py line 38 message. -/
def devicesNotListMsg : List Char :=
  squote :: "devices".toList ++ squote :: " must be a list".toList

/-- validate_scan.py line 44: `f"Device {i} missing field: {field}"` with
the field name quoted. -/
def deviceMsg (i : Nat) (f : List Char) : List Char :=
  "Device ".toList ++ natToChars i ++ " missing field: ".toList
    ++ squote :: f ++ [squote]

/-- The five required top-level fields, in source order. -/
def requiredFields : List (List Char) :=
  ["scan_timestamp".toList, "host".toList, "interface".toList,
   "devices_count".toList, "devices".toList]

/-- The three per-device fields, in source order. -/
def deviceFields : List (List Char) :=
  ["ip".toList, "mac".toList, "vendor".toList]

/-- The inner loop of validate_scan.py lines 42-44 for one device entry.
`field not in device`: key membership for a dict, substring test for a
string, element equality for a list.  (For a number CPython would raise a
TypeError and the script would crash; that exceptional path is outside this
total model and is never exercised by the program, which always writes
objects.) -/
def deviceFieldErrs (i : Nat) : JVal → List (List Char)
  | .jobj fs => (deviceFields.filter (fun f => !(hasKey fs f))).map (deviceMsg i)
  | .jstr s => (deviceFields.filter (fun f => !(containsSub f s))).map (deviceMsg i)
  | .jarr xs =>
    (deviceFields.filter
      (fun f => !(xs.any (fun x => match x with | .jstr t => t = f | _ => false)))).map
      (deviceMsg i)
  | .jnum _ => []

/-- The `enumerate(data["devices"])` loop of validate_scan.py lines 41-44. -/
def deviceListErrs (i : Nat) : List JVal → List (List Char)
  | [] => []
  | d :: ds => deviceFieldErrs i d ++ deviceListErrs (i + 1) ds

/-- validate_scan.py `validate_structure`: collect every missing required
top-level field, then check the devices sequence if present. -/
def validate_structure (data : List (List Char × JVal)) : List (List Char) :=
  let errs1 := (requiredFields.filter (fun f => !(hasKey data f))).map missingFieldMsg
  match lookupKey data "devices".toList with
  | none => errs1
  | some (.jarr devs) => errs1 ++ deviceListErrs 0 devs
  | some _ => errs1 ++ [devicesNotListMsg]

/-- The pure part of scanner.py `save_results`: the results dictionary with
its five keys in source order.  The hostname and the timestamp stand for
the values of `get_hostname()` and `datetime.now().strftime(...)`; the file
write itself is I/O and carries no further structure. -/
def save_results (devices : List JVal) (host interfaceName ts : List Char) :
    List (List Char × JVal) :=
  [("scan_timestamp".toList, .jstr ts),
   ("host".toList, .jstr host),
   ("interface".toList, .jstr interfaceName),
   ("devices_count".toList, .jnum devices.length),
   ("devices".toList, .jarr devices)]

/-- A device entry that carries the three required fields (the round-trip
hypothesis of the spec). -/
def deviceOk : JVal → Bool
  | .jobj fs => hasKey fs "ip".toList && hasKey fs "mac".toList && hasKey fs "vendor".toList
  | _ => false

/-! ### Well-formed scan-tool output

The spec quantifies claim C1 over "well-formed scan-tool outputs".  Per
spec section 6 such an output consists of device lines
`IP<tab/space>MAC<tab/space>Vendor` and banner or statistics lines.  The
predicates below capture that: a device line is a valid dotted quad
(octets in [0,255]), a run of blanks, a 6-group colon-separated MAC, a run
of blanks and a vendor text; any other line is acceptable as long as it
does not begin with the dotted-quad shape (which covers every banner,
header and statistics line the tool prints). -/

/-- Blank separator characters inside a device line. -/
def isBlank (c : Char) : Bool := c == ' ' || c == '\t'

/-- A valid octet string: 1 to 3 digits, value at most 255. -/
def OctOk (x : List Char) : Prop :=
  x ≠ [] ∧ x.length ≤ 3 ∧ (∀ c ∈ x, c.isDigit = true) ∧ charsToNat x ≤ 255

/-- A valid dotted-quad IP string. -/
def IpOkP (ip : List Char) : Prop :=
  ∃ a b c d, ip = a ++ '.' :: b ++ '.' :: c ++ '.' :: d
    ∧ OctOk a ∧ OctOk b ∧ OctOk c ∧ OctOk d

/-- A pair of hex digits (either case). -/
def HexPair (h : List Char) : Prop :=
  h.length = 2 ∧ ∀ c ∈ h, hexDigit c = true

/-- A valid MAC string: six groups of two hex digits joined by colons. -/
def MacOkP (mac : List Char) : Prop :=
  ∃ h1 h2 h3 h4 h5 h6,
    mac = h1 ++ ':' :: h2 ++ ':' :: h3 ++ ':' :: h4 ++ ':' :: h5 ++ ':' :: h6
    ∧ HexPair h1 ∧ HexPair h2 ∧ HexPair h3 ∧ HexPair h4 ∧ HexPair h5 ∧ HexPair h6

/-- A non-empty run of blanks. -/
def BlankRun (w : List Char) : Prop :=
  w ≠ [] ∧ ∀ c ∈ w, isBlank c = true

/-- A well-formed vendor text: non-empty, on one line, not starting with
whitespace and containing at least one non-whitespace character (the free
text the scan tool prints never starts with whitespace). -/
def VendorOkP (v : List Char) : Prop :=
  v ≠ [] ∧ (∀ c ∈ v, c ≠ '\n') ∧ (∀ c, v.head? = some c → isPyWS c = false)

/-- A well-formed device line. -/
def DeviceLineOk (l : List Char) : Prop :=
  ∃ ip w1 mac w2 v, l = ip ++ w1 ++ mac ++ w2 ++ v
    ∧ IpOkP ip ∧ BlankRun w1 ∧ MacOkP mac ∧ BlankRun w2 ∧ VendorOkP v

/-- A well-formed line: a device line, or any line that does not begin
with the dotted-quad shape. -/
def LineOk (l : List Char) : Prop :=
  (∀ c ∈ l, c ≠ '\n') ∧ (DeviceLineOk l ∨ parseQuad l = none)

/-- Join lines with newlines (inverse of `linesOf`). -/
def joinLines : List (List Char) → List Char
  | [] => []
  | [l] => l
  | l :: l2 :: ls => l ++ '\n' :: joinLines (l2 :: ls)

/-- A well-formed scan-tool output: a newline-joined list of well-formed
lines. -/
def WellFormed (s : List Char) : Prop :=
  ∃ ls, s = joinLines ls ∧ ∀ l ∈ ls, LineOk l

/-- Lowercase hex digit (or decimal digit). -/
def lowerHex (c : Char) : Bool :=
  c.isDigit || ('a' ≤ c && c ≤ 'f')

/-- The 6-octet lowercase-hex-colon MAC shape of the spec: six two-digit
lowercase hex groups separated by colons. -/
def macShape (m : List Char) : Bool :=
  match m with
  | [a1, a2, c1, b1, b2, c2, d1, d2, c3, e1, e2, c4, f1, f2, c5, g1, g2] =>
    c1 == ':' && c2 == ':' && c3 == ':' && c4 == ':' && c5 == ':'
      && lowerHex a1 && lowerHex a2 && lowerHex b1 && lowerHex b2
      && lowerHex d1 && lowerHex d2 && lowerHex e1 && lowerHex e2
      && lowerHex f1 && lowerHex f2 && lowerHex g1 && lowerHex g2
  | _ => false

/-- One dotted-quad group as the spec requires it: a non-empty digit
string whose value is in [0,255]. -/
def octShape (x : List Char) : Bool :=
  !x.isEmpty && x.length ≤ 3 && x.all Char.isDigit && charsToNat x ≤ 255

/-- The spec shape of an emitted ip: four dot-separated integers in
[0,255]. -/
def ipShape (ip : List Char) : Bool :=
  match splitDot ip with
  | [a, b, c, d] => octShape a && octShape b && octShape c && octShape d
  | _ => false

/-- The (ip, mac) key test on an emitted record. -/
def keyIs (i m : List Char) (d : Device) : Bool :=
  decide (d.ip = i ∧ d.mac = m)

/-- A raw match that survives the DUP filter and carries the given
(ip, lowercased mac) key. -/
def goodKey (i m : List Char) (mt : RawMatch) : Bool :=
  !isDup mt && decide (mt.ipCs = i) && decide (mt.macCs.map Char.toLower = m)

/-! ## Basic span lemmas -/

/-- If every element of `a` satisfies `p` and the head of `r` (when there
is one) does not, the `takeWhile` span of `a ++ r` is exactly `a`. -/
theorem takeWhile_append_span {p : Char → Bool} {a r : List Char}
    (h1 : ∀ c ∈ a, p c = true) (h2 : ∀ c, r.head? = some c → p c = false) :
    (a ++ r).takeWhile p = a := by
  induction a with
  | nil =>
    cases r with
    | nil => rfl
    | cons c rs => simp [List.takeWhile, h2 c rfl]
  | cons c a ih =>
    have hc : p c = true := h1 c (by simp)
    rw [List.cons_append, List.takeWhile_cons_of_pos hc,
      ih (fun x hx => h1 x (by simp [hx]))]

/-- Companion of `takeWhile_append_span` for `dropWhile`. -/
theorem dropWhile_append_span {p : Char → Bool} {a r : List Char}
    (h1 : ∀ c ∈ a, p c = true) (h2 : ∀ c, r.head? = some c → p c = false) :
    (a ++ r).dropWhile p = r := by
  induction a with
  | nil =>
    cases r with
    | nil => rfl
    | cons c rs => simp [List.dropWhile, h2 c rfl]
  | cons c a ih =>
    have hc : p c = true := h1 c (by simp)
    rw [List.cons_append, List.dropWhile_cons_of_pos hc]
    exact ih (fun x hx => h1 x (by simp [hx]))

/-- The head of a `dropWhile` result does not satisfy the predicate. -/
theorem dropWhile_head_false {p : Char → Bool} {s : List Char} {c : Char}
    {rest : List Char} (h : s.dropWhile p = c :: rest) : p c = false := by
  induction s with
  | nil => simp at h
  | cons x xs ih =>
    by_cases hx : p x = true
    · rw [List.dropWhile_cons_of_pos hx] at h
      exact ih h
    · rw [List.dropWhile_cons_of_neg hx] at h
      cases h
      simpa using hx

/-- Appending `'\n' :: t` does not change a `takeWhile` span for a
predicate that rejects newline. -/
theorem takeWhile_append_nl {p : Char → Bool} (hp : p '\n' = false)
    (l t : List Char) : (l ++ '\n' :: t).takeWhile p = l.takeWhile p := by
  induction l with
  | nil => simp [List.takeWhile, hp]
  | cons c l ih =>
    by_cases hc : p c = true <;>
      simp [List.takeWhile, hc, ih]

/-- Appending `'\n' :: t` commutes with `dropWhile` for a predicate that
rejects newline. -/
theorem dropWhile_append_nl {p : Char → Bool} (hp : p '\n' = false)
    (l t : List Char) : (l ++ '\n' :: t).dropWhile p = l.dropWhile p ++ '\n' :: t := by
  induction l with
  | nil => simp [List.dropWhile, hp]
  | cons c l ih =>
    by_cases hc : p c = true <;>
      simp [List.dropWhile, hc, ih]

/-! ## Structure of the octet and quad parsers -/

theorem matchOctet_spec {s d r : List Char} (h : matchOctet s = some (d, r)) :
    s = d ++ r ∧ d ≠ [] ∧ d.length ≤ 3 ∧ (∀ c ∈ d, c.isDigit = true) := by
  unfold matchOctet at h
  split at h
  · exact absurd h (by simp)
  · rename_i hc
    push_neg at hc
    simp only [Option.some.injEq, Prod.mk.injEq] at h
    obtain ⟨hd, hr⟩ := h
    subst hd hr
    refine ⟨(List.takeWhile_append_dropWhile Char.isDigit s).symm,
      ?_, by omega, fun c hc => List.mem_takeWhile_imp hc⟩
    intro hnil
    rw [hnil] at hc
    simp at hc

theorem expectChar_spec {c : Char} {s r : List Char} (h : expectChar c s = some r) :
    s = c :: r := by
  cases s with
  | nil => simp [expectChar] at h
  | cons x xs =>
    by_cases hx : x = c
    · simp [expectChar, hx] at h
      simp [hx, h]
    · simp [expectChar, hx] at h

theorem parseQuad_spec {s ip r : List Char} (h : parseQuad s = some (ip, r)) :
    s = ip ++ r ∧ ip ≠ [] := by
  unfold parseQuad at h
  simp only [Option.bind_eq_some, Option.map_eq_some'] at h
  obtain ⟨⟨a, r1⟩, ha, r2, hd1, ⟨b, r3⟩, hb, r4, hd2, ⟨c, r5⟩, hcm, r6, hd3,
    ⟨d, r7⟩, hdm, h⟩ := h
  dsimp only at hd1 hd2 hd3 h
  simp only [Prod.mk.injEq] at h
  obtain ⟨hip, hr⟩ := h
  subst hip hr
  have h1 := (matchOctet_spec ha).1
  have h2 := expectChar_spec hd1
  have h3 := (matchOctet_spec hb).1
  have h4 := expectChar_spec hd2
  have h5 := (matchOctet_spec hcm).1
  have h6 := expectChar_spec hd3
  have h7 := (matchOctet_spec hdm).1
  subst h7 h6 h5 h4 h3 h2 h1
  refine ⟨by simp, ?_⟩
  intro hnil
  simp at hnil

/-! ## Structure of a successful tail match and full match -/

theorem matchTail_spec {s w2 v r : List Char}
    (h : matchTail s = some (w2, v, r)) :
    s = w2 ++ v ++ r ∧ (r.head? = none ∨ r.head? = some '\n') ∧ v ≠ [] := by
  unfold matchTail at h
  by_cases hw : s.takeWhile isPyWS = []
  · rw [if_pos hw] at h
    exact absurd h (by simp)
  rw [if_neg hw] at h
  by_cases hd : s.dropWhile isPyWS = []
  · rw [if_pos hd] at h
    cases hA : (s.takeWhile isPyWS).reverse.dropWhile isNl with
    | nil =>
      rw [hA] at h
      exact absurd h (by simp)
    | cons c A =>
      cases A with
      | nil =>
        rw [hA] at h
        exact absurd h (by simp)
      | cons c2 restA =>
        rw [hA] at h
        simp only [Option.some.injEq, Prod.mk.injEq] at h
        obtain ⟨h1, h2, h3⟩ := h
        subst h1 h2 h3
        have hs2 : s = s.takeWhile isPyWS := by
          conv_lhs => rw [← List.takeWhile_append_dropWhile isPyWS s]
          rw [hd, List.append_nil]
        have hrev : (s.takeWhile isPyWS).reverse
            = (s.takeWhile isPyWS).reverse.takeWhile isNl ++ (c :: c2 :: restA) := by
          conv_lhs =>
            rw [← List.takeWhile_append_dropWhile isNl (s.takeWhile isPyWS).reverse]
          rw [hA]
        refine ⟨?_, ?_, by simp⟩
        · conv_lhs => rw [hs2, ← List.reverse_reverse (s.takeWhile isPyWS), hrev]
          simp [List.reverse_append, List.reverse_cons, List.append_assoc]
        · cases hn : ((s.takeWhile isPyWS).reverse.takeWhile isNl).reverse with
          | nil => exact Or.inl rfl
          | cons x xs =>
            right
            have hxmem : x ∈ (s.takeWhile isPyWS).reverse.takeWhile isNl := by
              rw [← List.mem_reverse, hn]
              simp
            have hx : x = '\n' := by
              simpa [isNl] using List.mem_takeWhile_imp hxmem
            simp [hn, hx]
  · rw [if_neg hd] at h
    simp only [Option.some.injEq, Prod.mk.injEq] at h
    obtain ⟨h1, h2, h3⟩ := h
    subst h1 h2 h3
    refine ⟨?_, ?_, ?_⟩
    · rw [List.append_assoc, List.takeWhile_append_dropWhile,
        List.takeWhile_append_dropWhile]
    · cases hdd : (s.dropWhile isPyWS).dropWhile notNl with
      | nil => exact Or.inl rfl
      | cons x xs =>
        right
        have hx : x = '\n' := by simpa [notNl] using dropWhile_head_false hdd
        simp [hx]
    · cases hdw : s.dropWhile isPyWS with
      | nil => exact absurd hdw hd
      | cons c R =>
        have hc1 : isPyWS c = false := dropWhile_head_false hdw
        have hc2 : notNl c = true := by
          simp only [notNl, Bool.not_eq_true', beq_eq_false_iff_ne, ne_eq]
          intro hc
          rw [hc] at hc1
          simp [isPyWS] at hc1
        simp [hdw, List.takeWhile_cons_of_pos hc2]

theorem matchAt_spec {s : List Char} {m : RawMatch} {r : List Char}
    (h : matchAt s = some (m, r)) :
    s = m.seg ++ r ∧ (r.head? = none ∨ r.head? = some '\n') ∧ m.ipCs ≠ []
      ∧ m.vendorCs ≠ [] := by
  unfold matchAt at h
  simp only [Option.bind_eq_some] at h
  obtain ⟨⟨ip, r1⟩, hq, h⟩ := h
  dsimp only at h
  by_cases hw1 : r1.takeWhile isPyWS = []
  · rw [if_pos hw1] at h
    exact absurd h (by simp)
  rw [if_neg hw1] at h
  by_cases hmac : ((r1.dropWhile isPyWS).take 17).length = 17
      ∧ ((r1.dropWhile isPyWS).take 17).all isMacChar = true
  · rw [if_pos hmac] at h
    simp only [Option.map_eq_some'] at h
    obtain ⟨⟨w2, v, rest⟩, htail, hf⟩ := h
    dsimp only at hf
    simp only [Prod.mk.injEq] at hf
    obtain ⟨h1, h2⟩ := hf
    subst h1 h2
    obtain ⟨hts, hth, htv⟩ := matchTail_spec htail
    obtain ⟨hqs, hqn⟩ := parseQuad_spec hq
    refine ⟨?_, hth, hqn, htv⟩
    rw [hqs]
    simp only [RawMatch.seg]
    conv_lhs => rw [← List.takeWhile_append_dropWhile isPyWS r1]
    conv_lhs => rw [← List.take_append_drop 17 (r1.dropWhile isPyWS)]
    rw [hts]
    simp [List.append_assoc]
  · rw [if_neg hmac] at h
    exact absurd h (by simp)

/-- A successful match consumes at least one character. -/
theorem matchAt_length {s : List Char} {m : RawMatch} {r : List Char}
    (h : matchAt s = some (m, r)) : r.length < s.length := by
  obtain ⟨hs, _, hip, _⟩ := matchAt_spec h
  rw [hs]
  simp only [RawMatch.seg, List.length_append]
  cases hc : m.ipCs with
  | nil => exact absurd hc hip
  | cons x xs => simp [hc]

/-! ## The scanning loop -/

theorem findMatchesF_nil (f : Nat) (st : Bool) : findMatchesF f [] st = [] := by
  cases f <;> rfl

theorem findMatchesF_cons_false (f : Nat) (c : Char) (rest : List Char) :
    findMatchesF (f + 1) (c :: rest) false = findMatchesF f rest (c == '\n') := rfl

theorem findMatchesF_cons_true (f : Nat) (c : Char) (rest : List Char) :
    findMatchesF (f + 1) (c :: rest) true =
      match matchAt (c :: rest) with
      | some (m, r) => m :: findMatchesF f r false
      | none => findMatchesF f rest (c == '\n') := rfl

/-- The scanning loop does not depend on the exact fuel, as long as the
fuel exceeds the length of the text. -/
theorem findMatchesF_irrel : ∀ (f1 : Nat) {s : List Char} {st : Bool} (f2 : Nat),
    s.length < f1 → s.length < f2 →
    findMatchesF f1 s st = findMatchesF f2 s st := by
  intro f1
  induction f1 with
  | zero => intro s st f2 h1 h2; omega
  | succ g1 ih =>
    intro s st f2 h1 h2
    cases s with
    | nil => rw [findMatchesF_nil, findMatchesF_nil]
    | cons c rest =>
      cases f2 with
      | zero => simp at h2
      | succ g2 =>
        have hrest : rest.length < g1 := by simp at h1; omega
        have hrest2 : rest.length < g2 := by simp at h2; omega
        cases st with
        | false =>
          rw [findMatchesF_cons_false, findMatchesF_cons_false]
          exact ih g2 hrest hrest2
        | true =>
          rw [findMatchesF_cons_true, findMatchesF_cons_true]
          cases hma : matchAt (c :: rest) with
          | none => exact ih g2 hrest hrest2
          | some pr =>
            obtain ⟨m, r⟩ := pr
            have hr : r.length < rest.length + 1 := matchAt_length hma
            dsimp only
            rw [ih g2 (by omega) (by omega)]

/-- Away from a line start, a newline-free text produces no matches. -/
theorem findMatchesF_walk {x : List Char} (hx : ∀ c ∈ x, c ≠ '\n') :
    ∀ f, findMatchesF f x false = [] := by
  induction x with
  | nil => intro f; exact findMatchesF_nil f false
  | cons c rest ih =>
    intro f
    cases f with
    | zero => rfl
    | succ g =>
      have hc : (c == '\n') = false := by simp [hx c (by simp)]
      rw [findMatchesF_cons_false, hc]
      exact ih (fun d hd => hx d (by simp [hd])) g

/-- Away from a line start, scanning walks through the rest of the current
line and resumes at the next line start. -/
theorem findMatchesF_skipline {x : List Char} (t : List Char)
    (hx : ∀ c ∈ x, c ≠ '\n') :
    ∀ f, findMatchesF (x.length + (f + 1)) (x ++ '\n' :: t) false
      = findMatchesF f t true := by
  induction x with
  | nil =>
    intro f
    rw [List.length_nil, Nat.zero_add, List.nil_append, findMatchesF_cons_false]
    simp
  | cons c rest ih =>
    intro f
    have hc : (c == '\n') = false := by simp [hx c (by simp)]
    have hlen : (c :: rest).length + (f + 1) = (rest.length + (f + 1)) + 1 := by
      simp [List.length_cons]
      omega
    rw [List.cons_append, hlen, findMatchesF_cons_false, hc]
    exact ih (fun d hd => hx d (by simp [hd])) f

/-- Every produced match corresponds to a contiguous segment of the text
that begins at a line start (the start of the text when the scan is at a
line start, or just after a newline) and ends at a line end. -/
theorem findMatchesF_pos : ∀ (f : Nat) {s : List Char} {st : Bool} {m : RawMatch},
    m ∈ findMatchesF f s st →
    ∃ pre post, s = pre ++ m.seg ++ post
      ∧ ((st = true ∧ pre = []) ∨ ∃ pre2, pre = pre2 ++ ['\n'])
      ∧ (post.head? = none ∨ post.head? = some '\n') := by
  intro f
  induction f with
  | zero =>
    intro s st m hm
    simp [findMatchesF] at hm
  | succ g ih =>
    intro s st m hm
    cases s with
    | nil =>
      rw [findMatchesF_nil] at hm
      simp at hm
    | cons c rest =>
      cases st with
      | false =>
        rw [findMatchesF_cons_false] at hm
        obtain ⟨pre, post, h1, h2, h3⟩ := ih hm
        refine ⟨c :: pre, post, by simp [h1], Or.inr ?_, h3⟩
        rcases h2 with ⟨hcst, hpre⟩ | ⟨pre2, hpre⟩
        · have hcc : c = '\n' := by simpa using hcst
          exact ⟨[], by simp [hpre, hcc]⟩
        · exact ⟨c :: pre2, by simp [hpre]⟩
      | true =>
        rw [findMatchesF_cons_true] at hm
        cases hma : matchAt (c :: rest) with
        | none =>
          rw [hma] at hm
          obtain ⟨pre, post, h1, h2, h3⟩ := ih hm
          refine ⟨c :: pre, post, by simp [h1], Or.inr ?_, h3⟩
          rcases h2 with ⟨hcst, hpre⟩ | ⟨pre2, hpre⟩
          · have hcc : c = '\n' := by simpa using hcst
            exact ⟨[], by simp [hpre, hcc]⟩
          · exact ⟨c :: pre2, by simp [hpre]⟩
        | some pr =>
          obtain ⟨m0, r⟩ := pr
          rw [hma] at hm
          dsimp only at hm
          rcases List.mem_cons.mp hm with hmm | hm'
          · subst hmm
            obtain ⟨hs, hh, _, _⟩ := matchAt_spec hma
            exact ⟨[], r, by simpa using hs, Or.inl ⟨rfl, rfl⟩, hh⟩
          · obtain ⟨pre, post, h1, h2, h3⟩ := ih hm'
            rcases h2 with ⟨hcst, _⟩ | ⟨pre2, hpre⟩
            · simp at hcst
            · obtain ⟨hs, _, _, _⟩ := matchAt_spec hma
              refine ⟨m0.seg ++ pre, post, ?_, Or.inr ⟨m0.seg ++ pre2, by simp [hpre]⟩, h3⟩
              rw [hs, h1]
              simp [List.append_assoc]

/-! ## The deduplication loop -/

theorem buildDevices_cons (m : RawMatch) (ms : List RawMatch) (acc : List Device) :
    buildDevices (m :: ms) acc =
      if isDup m then buildDevices ms acc
      else if acc.any (fun e => e.ip = (mkDevice m).ip ∧ e.mac = (mkDevice m).mac)
        then buildDevices ms acc
        else buildDevices ms (acc ++ [mkDevice m]) := rfl

/-- Every record produced by the deduplication loop is either carried in
from the accumulator or built from a non-DUP match of the input. -/
theorem mem_buildDevices : ∀ (ms : List RawMatch) (acc : List Device) (d : Device),
    d ∈ buildDevices ms acc →
    d ∈ acc ∨ ∃ m ∈ ms, isDup m = false ∧ d = mkDevice m := by
  intro ms
  induction ms with
  | nil =>
    intro acc d hd
    exact Or.inl (by simpa [buildDevices] using hd)
  | cons m ms ih =>
    intro acc d hd
    rw [buildDevices_cons] at hd
    by_cases hdup : isDup m = true
    · rw [if_pos hdup] at hd
      rcases ih acc d hd with h | ⟨m2, hm2, h1, h2⟩
      · exact Or.inl h
      · exact Or.inr ⟨m2, by simp [hm2], h1, h2⟩
    · rw [if_neg hdup] at hd
      by_cases hin : acc.any (fun e => e.ip = (mkDevice m).ip ∧ e.mac = (mkDevice m).mac) = true
      · rw [if_pos hin] at hd
        rcases ih acc d hd with h | ⟨m2, hm2, h1, h2⟩
        · exact Or.inl h
        · exact Or.inr ⟨m2, by simp [hm2], h1, h2⟩
      · rw [if_neg hin] at hd
        rcases ih (acc ++ [mkDevice m]) d hd with h | ⟨m2, hm2, h1, h2⟩
        · rcases List.mem_append.mp h with h | h
          · exact Or.inl h
          · refine Or.inr ⟨m, by simp, by simpa using hdup, by simpa using h⟩
        · exact Or.inr ⟨m2, by simp [hm2], h1, h2⟩

/-- The loop never stores two records with the same (ip, mac) key. -/
theorem pairwise_buildDevices : ∀ (ms : List RawMatch) (acc : List Device),
    acc.Pairwise (fun d e => ¬(d.ip = e.ip ∧ d.mac = e.mac)) →
    (buildDevices ms acc).Pairwise (fun d e => ¬(d.ip = e.ip ∧ d.mac = e.mac)) := by
  intro ms
  induction ms with
  | nil => intro acc h; simpa [buildDevices] using h
  | cons m ms ih =>
    intro acc h
    rw [buildDevices_cons]
    by_cases hdup : isDup m = true
    · rw [if_pos hdup]; exact ih acc h
    · rw [if_neg hdup]
      by_cases hin : acc.any (fun e => e.ip = (mkDevice m).ip ∧ e.mac = (mkDevice m).mac) = true
      · rw [if_pos hin]; exact ih acc h
      · rw [if_neg hin]
        refine ih (acc ++ [mkDevice m]) ?_
        rw [List.pairwise_append]
        refine ⟨h, by simp, ?_⟩
        intro a ha b hb
        simp only [List.mem_singleton] at hb
        subst hb
        have hall : ∀ x ∈ acc, x.ip = (mkDevice m).ip → ¬x.mac = (mkDevice m).mac := by
          simpa using hin
        exact fun hcon => hall a ha hcon.1 hcon.2

/-! ## The sort -/

theorem natListLe_refl : ∀ a : List Nat, natListLe a a = true := by
  intro a
  induction a with
  | nil => rfl
  | cons x xs ih => simp [natListLe, ih]

theorem natListLe_total : ∀ a b : List Nat, natListLe a b = true ∨ natListLe b a = true := by
  intro a
  induction a with
  | nil => intro b; exact Or.inl rfl
  | cons x xs ih =>
    intro b
    cases b with
    | nil => exact Or.inr rfl
    | cons y ys =>
      rcases Nat.lt_trichotomy x y with h | h | h
      · exact Or.inl (by simp [natListLe, h])
      · subst h
        rcases ih ys with h2 | h2
        · exact Or.inl (by simp [natListLe, h2])
        · exact Or.inr (by simp [natListLe, h2])
      · exact Or.inr (by simp [natListLe, h])

theorem natListLe_cons_iff {x y : Nat} {xs ys : List Nat} :
    natListLe (x :: xs) (y :: ys) = true ↔ x < y ∨ (x = y ∧ natListLe xs ys = true) := by
  by_cases h1 : x < y
  · simp [natListLe, h1]
  · by_cases h2 : y < x
    · simp only [natListLe, if_neg h1, if_pos h2]
      constructor
      · intro h; cases h
      · intro h
        rcases h with h | ⟨h, _⟩ <;> omega
    · have hxy : x = y := by omega
      subst hxy
      simp [natListLe, h1, h2]

theorem natListLe_trans : ∀ a b c : List Nat,
    natListLe a b = true → natListLe b c = true → natListLe a c = true := by
  intro a
  induction a with
  | nil => intro b c _ _; rfl
  | cons x xs ih =>
    intro b c hab hbc
    cases b with
    | nil => simp [natListLe] at hab
    | cons y ys =>
      cases c with
      | nil => simp [natListLe] at hbc
      | cons z zs =>
        rw [natListLe_cons_iff] at hab hbc ⊢
        rcases hab with h | ⟨h, hab⟩ <;> rcases hbc with h2 | ⟨h2, hbc⟩
        · exact Or.inl (by omega)
        · exact Or.inl (by omega)
        · exact Or.inl (by omega)
        · exact Or.inr ⟨by omega, ih ys zs hab hbc⟩

theorem devLe_total : ∀ d e : Device, devLe d e = true ∨ devLe e d = true := by
  intro d e
  exact natListLe_total (ipKey d.ip) (ipKey e.ip)

theorem devLe_trans : ∀ d e f : Device,
    devLe d e = true → devLe e f = true → devLe d f = true := by
  intro d e f h1 h2
  exact natListLe_trans _ _ _ h1 h2

theorem mem_orderedInsert (le : Device → Device → Bool) (a x : Device) :
    ∀ l : List Device, (x ∈ orderedInsert le a l ↔ x = a ∨ x ∈ l) := by
  intro l
  induction l with
  | nil => simp [orderedInsert]
  | cons b l ih =>
    by_cases hab : le a b = true
    · simp [orderedInsert, hab]
    · simp [orderedInsert, hab, ih]
      tauto

theorem perm_orderedInsert (le : Device → Device → Bool) (a : Device) :
    ∀ l : List Device, (orderedInsert le a l).Perm (a :: l) := by
  intro l
  induction l with
  | nil => exact List.Perm.refl _
  | cons b l ih =>
    by_cases hab : le a b = true
    · rw [orderedInsert, if_pos hab]
    · rw [orderedInsert, if_neg hab]
      exact (ih.cons b).trans (List.Perm.swap a b l)

theorem perm_insertionSort (le : Device → Device → Bool) :
    ∀ l : List Device, (insertionSort le l).Perm l := by
  intro l
  induction l with
  | nil => exact List.Perm.refl _
  | cons a l ih =>
    rw [insertionSort]
    exact (perm_orderedInsert le a (insertionSort le l)).trans (ih.cons a)

theorem mem_insertionSort (le : Device → Device → Bool) (l : List Device) (x : Device) :
    x ∈ insertionSort le l ↔ x ∈ l :=
  (perm_insertionSort le l).mem_iff

theorem pairwise_orderedInsert {le : Device → Device → Bool}
    (htot : ∀ x y, le x y = true ∨ le y x = true)
    (htr : ∀ x y z, le x y = true → le y z = true → le x z = true)
    (a : Device) :
    ∀ l : List Device, l.Pairwise (fun d e => le d e = true) →
      (orderedInsert le a l).Pairwise (fun d e => le d e = true) := by
  intro l
  induction l with
  | nil => intro _; simp [orderedInsert]
  | cons b l ih =>
    intro hp
    rw [List.pairwise_cons] at hp
    obtain ⟨hb, hl⟩ := hp
    by_cases hab : le a b = true
    · rw [orderedInsert, if_pos hab]
      rw [List.pairwise_cons]
      refine ⟨?_, List.pairwise_cons.mpr ⟨hb, hl⟩⟩
      intro x hx
      rcases List.mem_cons.mp hx with h | h
      · subst h; exact hab
      · exact htr a b x hab (hb x h)
    · rw [orderedInsert, if_neg hab]
      rw [List.pairwise_cons]
      refine ⟨?_, ih hl⟩
      intro x hx
      rcases (mem_orderedInsert le a x l).mp hx with h | h
      · rw [h]
        exact (htot a b).resolve_left hab
      · exact hb x h

theorem pairwise_insertionSort {le : Device → Device → Bool}
    (htot : ∀ x y, le x y = true ∨ le y x = true)
    (htr : ∀ x y z, le x y = true → le y z = true → le x z = true) :
    ∀ l : List Device, (insertionSort le l).Pairwise (fun d e => le d e = true) := by
  intro l
  induction l with
  | nil => simp [insertionSort]
  | cons a l ih =>
    rw [insertionSort]
    exact pairwise_orderedInsert htot htr a _ ih

theorem filter_orderedInsert_pos {le : Device → Device → Bool} {p : Device → Bool}
    {a : Device} (hpa : p a = true) (hkey : ∀ b, p b = true → le a b = true) :
    ∀ l : List Device, (orderedInsert le a l).filter p = a :: l.filter p := by
  intro l
  induction l with
  | nil => simp [orderedInsert, hpa]
  | cons b l ih =>
    by_cases hab : le a b = true
    · rw [orderedInsert, if_pos hab]
      simp [List.filter_cons, hpa]
    · rw [orderedInsert, if_neg hab]
      have hpb : p b = false := by
        cases hb : p b with
        | false => rfl
        | true => exact absurd (hkey b hb) hab
      simp [List.filter_cons, hpb, ih]

theorem filter_orderedInsert_neg {le : Device → Device → Bool} {p : Device → Bool}
    {a : Device} (hpa : p a = false) :
    ∀ l : List Device, (orderedInsert le a l).filter p = l.filter p := by
  intro l
  induction l with
  | nil => simp [orderedInsert, hpa]
  | cons b l ih =>
    by_cases hab : le a b = true
    · rw [orderedInsert, if_pos hab]
      simp [List.filter_cons, hpa]
    · rw [orderedInsert, if_neg hab]
      simp [List.filter_cons, ih]

/-- A stable sort does not reorder the records selected by a predicate
that pins down the sort key. -/
theorem filter_insertionSort {le : Device → Device → Bool} {p : Device → Bool}
    (hp : ∀ x y, p x = true → p y = true → le x y = true) :
    ∀ l : List Device, (insertionSort le l).filter p = l.filter p := by
  intro l
  induction l with
  | nil => rfl
  | cons a l ih =>
    rw [insertionSort]
    by_cases hpa : p a = true
    · rw [filter_orderedInsert_pos hpa (fun b hb => hp a b hpa hb), ih]
      simp [List.filter_cons, hpa]
    · have hpa2 : p a = false := by
        cases hpb : p a with
        | false => rfl
        | true => exact absurd hpb hpa
      rw [filter_orderedInsert_neg hpa2, ih]
      simp [List.filter_cons, hpa2]

/-- Every record of the final output comes from a non-DUP match. -/
theorem mem_parse {s : List Char} {d : Device} (hd : d ∈ parse_arp_output s) :
    ∃ m ∈ pyMatches s, isDup m = false ∧ d = mkDevice m := by
  rw [parse_arp_output] at hd
  have hd2 := (mem_insertionSort devLe _ d).mp hd
  rcases mem_buildDevices _ [] d hd2 with h | h
  · simp at h
  · exact h

/-- What the deduplication loop leaves for one fixed (ip, mac) key: if the
accumulator already holds the key nothing is added, otherwise exactly the
first surviving match with that key contributes one record. -/
theorem buildDevices_filter (i m : List Char) : ∀ (ms : List RawMatch) (acc : List Device),
    (buildDevices ms acc).filter (keyIs i m)
      = if acc.any (keyIs i m) then acc.filter (keyIs i m)
        else acc.filter (keyIs i m) ++
          ((ms.find? (goodKey i m)).elim [] fun mt => [mkDevice mt]) := by
  intro ms
  induction ms with
  | nil =>
    intro acc
    by_cases h : acc.any (keyIs i m) = true
    · rw [if_pos h]; rfl
    · rw [if_neg h]
      simp [buildDevices]
  | cons mt ms ih =>
    intro acc
    rw [buildDevices_cons]
    by_cases hdup : isDup mt = true
    · rw [if_pos hdup, ih]
      have hgk : goodKey i m mt = false := by simp [goodKey, hdup]
      simp only [List.find?_cons, hgk]
    · rw [if_neg hdup]
      by_cases hin : acc.any (fun e => e.ip = (mkDevice mt).ip ∧ e.mac = (mkDevice mt).mac) = true
      · rw [if_pos hin, ih]
        by_cases hgk : goodKey i m mt = true
        · have hgg := hgk
          simp only [goodKey, Bool.and_eq_true, Bool.not_eq_true', decide_eq_true_eq] at hgg
          obtain ⟨⟨hnd, hip⟩, hmac⟩ := hgg
          have hin2 : acc.any (keyIs i m) = true := by
            simpa [keyIs, mkDevice, hip, hmac] using hin
          rw [if_pos hin2, if_pos hin2]
        · have hgk2 : goodKey i m mt = false := by simpa using hgk
          simp only [List.find?_cons, hgk2]
      · rw [if_neg hin, ih]
        by_cases hgk : goodKey i m mt = true
        · have hgg := hgk
          simp only [goodKey, Bool.and_eq_true, Bool.not_eq_true', decide_eq_true_eq] at hgg
          obtain ⟨⟨hnd, hip⟩, hmac⟩ := hgg
          have hkd : keyIs i m (mkDevice mt) = true := by
            simp [keyIs, mkDevice, hip, hmac]
          have hin0 : ¬acc.any (keyIs i m) = true := by
            intro hq
            apply hin
            simpa [keyIs, mkDevice, hip, hmac] using hq
          have hany : (acc ++ [mkDevice mt]).any (keyIs i m) = true := by
            simp [List.any_append, hkd]
          rw [if_pos hany, if_neg hin0]
          simp only [List.find?_cons, hgk]
          rw [List.filter_append]
          simp [hkd]
        · have hgk2 : goodKey i m mt = false := by simpa using hgk
          have hkd : keyIs i m (mkDevice mt) = false := by
            cases hq : keyIs i m (mkDevice mt) with
            | false => rfl
            | true =>
              exfalso
              simp only [keyIs, mkDevice, decide_eq_true_eq] at hq
              obtain ⟨hip, hmac⟩ := hq
              have : goodKey i m mt = true := by
                simp [goodKey, hdup, hip, hmac]
              rw [this] at hgk2
              cases hgk2
          have hany : (acc ++ [mkDevice mt]).any (keyIs i m) = acc.any (keyIs i m) := by
            simp [List.any_append, hkd]
          rw [hany]
          by_cases hacc : acc.any (keyIs i m) = true
          · rw [if_pos hacc, if_pos hacc]
            rw [List.filter_append]
            simp [hkd]
          · rw [if_neg hacc, if_neg hacc]
            rw [List.filter_append]
            simp only [List.find?_cons, hgk2]
            simp [hkd]

/-! ## Claims -/

/-- C3 counterexample: the claim that the final device list never contains
two records with the same ip fails on the code: two lines with the same IP
but different MACs survive deduplication, because the key is the
(ip, mac) pair, not the ip alone. -/
theorem c3_counterexample :
    ¬ (parse_arp_output
        ("1.2.3.4 aa:aa:aa:aa:aa:aa x\n1.2.3.4 bb:bb:bb:bb:bb:bb y".toList)).Pairwise
      (fun d e => d.ip ≠ e.ip) := by
  intro h
  rw [show parse_arp_output
        ("1.2.3.4 aa:aa:aa:aa:aa:aa x\n1.2.3.4 bb:bb:bb:bb:bb:bb y".toList)
      = [⟨"1.2.3.4".toList, "aa:aa:aa:aa:aa:aa".toList, "x".toList⟩,
         ⟨"1.2.3.4".toList, "bb:bb:bb:bb:bb:bb".toList, "y".toList⟩] from by decide] at h
  rcases List.pairwise_cons.mp h with ⟨h1, _⟩
  exact h1 ⟨"1.2.3.4".toList, "bb:bb:bb:bb:bb:bb".toList, "y".toList⟩ (by simp) (by decide)

/-- C3 (amended): the parser output never contains two records with the
same (ip, mac) key; records sharing an ip with different macs can occur. -/
theorem c3_no_duplicate_keys : ∀ s : List Char,
    (parse_arp_output s).Pairwise (fun d e => ¬(d.ip = e.ip ∧ d.mac = e.mac)) := by
  intro s
  have hbd := pairwise_buildDevices (pyMatches s) [] (by simp)
  have hperm := perm_insertionSort devLe (buildDevices (pyMatches s) [])
  rw [parse_arp_output]
  exact (List.Perm.pairwise_iff (fun h hc => h ⟨hc.1.symm, hc.2.symm⟩) hperm).mpr hbd

/-- C4: deduplication keeps the first occurrence: for every input and every
(ip, mac) key, the records with that key in the final output are exactly
one record built from the first non-DUP match carrying that key (in text
order), or nothing if there is no such match.  In particular two matching
lines with the same key and different vendor text yield one record with
the first-seen vendor. -/
theorem c4_dedup_first_wins : ∀ (s i m : List Char),
    (parse_arp_output s).filter (keyIs i m)
      = ((pyMatches s).find? (goodKey i m)).elim [] (fun mt => [mkDevice mt]) := by
  intro s i m
  rw [parse_arp_output]
  rw [filter_insertionSort (p := keyIs i m) ?hp]
  · rw [buildDevices_filter]
    simp
  case hp =>
    intro x y hx hy
    simp only [keyIs, decide_eq_true_eq] at hx hy
    unfold devLe
    rw [hx.1, hy.1]
    exact natListLe_refl _

/-- C5: the final output is sorted ascending by the IP compared as the
numeric tuple of octets (not as a string); on the three example IPs
10.0.0.5, 2.0.0.1, 2.0.0.9 with distinct MACs the output order is
2.0.0.1, 2.0.0.9, 10.0.0.5. -/
theorem c5_sorted_by_octet_tuple :
    (∀ s : List Char, (parse_arp_output s).Pairwise
      (fun d e => natListLe (ipKey d.ip) (ipKey e.ip) = true))
    ∧ (parse_arp_output
        ("10.0.0.5 aa:bb:cc:dd:ee:01 A\n2.0.0.1 aa:bb:cc:dd:ee:02 B\n2.0.0.9 aa:bb:cc:dd:ee:03 C".toList)).map
        Device.ip
      = ["2.0.0.1".toList, "2.0.0.9".toList, "10.0.0.5".toList] := by
  constructor
  · intro s
    rw [parse_arp_output]
    exact pairwise_insertionSort devLe_total devLe_trans _
  · decide

/-- C6: the vendor of every emitted record is the raw vendor group of some
match normalised by the cleaning chain (tabs to spaces, parenthesized MACs
removed, whitespace runs collapsed, ends trimmed), and the example vendor
text from the spec normalises to "NETGEAR Inc.". -/
theorem c6_vendor_normalized :
    (∀ (s : List Char) (d : Device), d ∈ parse_arp_output s →
      ∃ m ∈ pyMatches s, d.vendor = cleanVendor (pyStrip m.vendorCs))
    ∧ cleanVendor ("NETGEAR\t(aa:bb:cc:dd:ee:ff)  Inc.".toList) = "NETGEAR Inc.".toList := by
  constructor
  · intro s d hd
    obtain ⟨m, hm, _, hdm⟩ := mem_parse hd
    exact ⟨m, hm, by rw [hdm]; rfl⟩
  · decide

/-- C6 witness: a concrete record whose vendor went through the cleaning
chain. -/
theorem c6_witness :
    (⟨"192.168.1.1".toList, "aa:bb:cc:dd:ee:ff".toList, "NETGEAR Inc.".toList⟩ : Device)
        ∈ parse_arp_output
          ("192.168.1.1\taa:bb:cc:dd:ee:ff\tNETGEAR\t(aa:bb:cc:dd:ee:ff)  Inc.".toList)
    ∧ ∃ m ∈ pyMatches
          ("192.168.1.1\taa:bb:cc:dd:ee:ff\tNETGEAR\t(aa:bb:cc:dd:ee:ff)  Inc.".toList),
        ("NETGEAR Inc.".toList : List Char) = cleanVendor (pyStrip m.vendorCs) :=
  ⟨by decide, c6_vendor_normalized.1
    ("192.168.1.1\taa:bb:cc:dd:ee:ff\tNETGEAR\t(aa:bb:cc:dd:ee:ff)  Inc.".toList)
    ⟨"192.168.1.1".toList, "aa:bb:cc:dd:ee:ff".toList, "NETGEAR Inc.".toList⟩
    (by decide)⟩

/-- C7: every emitted record comes from a match that survived the DUP
filter, and a line whose vendor text contains "(DUP:" is discarded even
when its (ip, mac) key is unique. -/
theorem c7_dup_discarded :
    (∀ (s : List Char) (d : Device), d ∈ parse_arp_output s →
      ∃ m ∈ pyMatches s, isDup m = false ∧ d = mkDevice m)
    ∧ parse_arp_output ("1.2.3.4 aa:bb:cc:dd:ee:ff Cisco (DUP: 2)".toList) = [] :=
  ⟨fun _ _ hd => mem_parse hd, by decide⟩

/-- C7 witness: a concrete record of a mixed input, with its non-DUP source
match; the DUP line of the same input leaves no record. -/
theorem c7_witness :
    (⟨"2.3.4.5".toList, "11:22:33:44:55:66".toList, "Keep".toList⟩ : Device)
        ∈ parse_arp_output
          ("1.2.3.4 aa:bb:cc:dd:ee:ff Gone (DUP: 2)\n2.3.4.5 11:22:33:44:55:66 Keep".toList)
    ∧ ∃ m ∈ pyMatches
          ("1.2.3.4 aa:bb:cc:dd:ee:ff Gone (DUP: 2)\n2.3.4.5 11:22:33:44:55:66 Keep".toList),
        isDup m = false
        ∧ (⟨"2.3.4.5".toList, "11:22:33:44:55:66".toList, "Keep".toList⟩ : Device) = mkDevice m :=
  ⟨by decide, c7_dup_discarded.1 _ _ (by decide)⟩

/-- C10: the IP sort is stable with respect to first appearance — two
records of the deduplicated list (which is in first-occurrence order) with
equal IP octet tuples and different MACs keep their relative order in the
final output. -/
theorem c10_sort_stable : ∀ (s : List Char) (d1 d2 : Device),
    [d1, d2].Sublist (buildDevices (pyMatches s) []) →
    ipKey d1.ip = ipKey d2.ip → d1.mac ≠ d2.mac →
    [d1, d2].Sublist (parse_arp_output s) := by
  intro s d1 d2 hsub hkey _
  have h1 : (fun d => decide (ipKey d.ip = ipKey d1.ip)) d1 = true := by simp
  have h2 : (fun d => decide (ipKey d.ip = ipKey d1.ip)) d2 = true := by
    simp [← hkey]
  have hfsub : [d1, d2].Sublist
      ((buildDevices (pyMatches s) []).filter (fun d => decide (ipKey d.ip = ipKey d1.ip))) := by
    have hf := List.Sublist.filter (fun d => decide (ipKey d.ip = ipKey d1.ip)) hsub
    rwa [show ([d1, d2].filter (fun d => decide (ipKey d.ip = ipKey d1.ip))) = [d1, d2] from by
      simp [List.filter_cons, h1, h2]] at hf
  have hfeq : (insertionSort devLe (buildDevices (pyMatches s) [])).filter
        (fun d => decide (ipKey d.ip = ipKey d1.ip))
      = (buildDevices (pyMatches s) []).filter (fun d => decide (ipKey d.ip = ipKey d1.ip)) := by
    refine filter_insertionSort ?_ _
    intro x y hx hy
    simp only [decide_eq_true_eq] at hx hy
    unfold devLe
    rw [hx, hy]
    exact natListLe_refl _
  rw [parse_arp_output]
  exact (hfeq ▸ hfsub).trans (List.filter_sublist _)

/-- C10 witness: two records with the same IP and different MACs stay in
first-occurrence order after the sort. -/
theorem c10_witness :
    [(⟨"1.2.3.4".toList, "aa:aa:aa:aa:aa:aa".toList, "x".toList⟩ : Device),
     ⟨"1.2.3.4".toList, "bb:bb:bb:bb:bb:bb".toList, "y".toList⟩].Sublist
      (buildDevices (pyMatches
        ("1.2.3.4 aa:aa:aa:aa:aa:aa x\n1.2.3.4 bb:bb:bb:bb:bb:bb y".toList)) [])
    ∧ ipKey ("1.2.3.4".toList) = ipKey ("1.2.3.4".toList)
    ∧ ("aa:aa:aa:aa:aa:aa".toList : List Char) ≠ "bb:bb:bb:bb:bb:bb".toList
    ∧ [(⟨"1.2.3.4".toList, "aa:aa:aa:aa:aa:aa".toList, "x".toList⟩ : Device),
       ⟨"1.2.3.4".toList, "bb:bb:bb:bb:bb:bb".toList, "y".toList⟩].Sublist
        (parse_arp_output
          ("1.2.3.4 aa:aa:aa:aa:aa:aa x\n1.2.3.4 bb:bb:bb:bb:bb:bb y".toList)) := by
  have hb : buildDevices (pyMatches
        ("1.2.3.4 aa:aa:aa:aa:aa:aa x\n1.2.3.4 bb:bb:bb:bb:bb:bb y".toList)) []
      = [⟨"1.2.3.4".toList, "aa:aa:aa:aa:aa:aa".toList, "x".toList⟩,
         ⟨"1.2.3.4".toList, "bb:bb:bb:bb:bb:bb".toList, "y".toList⟩] := by decide
  have hsub : [(⟨"1.2.3.4".toList, "aa:aa:aa:aa:aa:aa".toList, "x".toList⟩ : Device),
      ⟨"1.2.3.4".toList, "bb:bb:bb:bb:bb:bb".toList, "y".toList⟩].Sublist
        (buildDevices (pyMatches
          ("1.2.3.4 aa:aa:aa:aa:aa:aa x\n1.2.3.4 bb:bb:bb:bb:bb:bb y".toList)) []) := by
    rw [hb]
  exact ⟨hsub, rfl, by decide,
    c10_sort_stable _ _ _ hsub rfl (by decide)⟩

/-- C2 counterexample: the pattern is not line-anchored in the sense of the
claim.  On the input "1.2.3.4\naa:bb:cc:dd:ee:ff x" the whitespace class
matches the newline, so the parser emits one record whose ip comes from
the first line and whose mac and vendor come from the second: no single
input line contains both the ip and the mac of the record. -/
theorem c2_counterexample :
    parse_arp_output ("1.2.3.4\naa:bb:cc:dd:ee:ff x".toList)
      = [⟨"1.2.3.4".toList, "aa:bb:cc:dd:ee:ff".toList, "x".toList⟩]
    ∧ ∀ l ∈ linesOf ("1.2.3.4\naa:bb:cc:dd:ee:ff x".toList),
        ¬(containsSub ("1.2.3.4".toList) l = true
          ∧ containsSub ("aa:bb:cc:dd:ee:ff".toList) l = true) := by
  constructor
  · decide
  · decide

/-- C2 (amended): every emitted record is built from one contiguous
matched segment of the input that begins at a line start and ends at a
line end; because the whitespace separators of the pattern also match
newlines, that segment can span more than one line, so the fields of one
record are not always drawn from a single line. -/
theorem c2_match_segment : ∀ (s : List Char) (d : Device), d ∈ parse_arp_output s →
    ∃ m pre post, m ∈ pyMatches s ∧ d = mkDevice m
      ∧ s = pre ++ m.seg ++ post
      ∧ (pre = [] ∨ ∃ pre2, pre = pre2 ++ ['\n'])
      ∧ (post.head? = none ∨ post.head? = some '\n') := by
  intro s d hd
  obtain ⟨m, hm, _, hdm⟩ := mem_parse hd
  obtain ⟨pre, post, h1, h2, h3⟩ := findMatchesF_pos _ hm
  refine ⟨m, pre, post, hm, hdm, h1, ?_, h3⟩
  rcases h2 with ⟨_, hpre⟩ | h2
  · exact Or.inl hpre
  · exact Or.inr h2

/-- C2 witness: the record of the cross-line input, with its matched
segment: the whole input is one segment starting at the start of the text
and ending at the end of the text. -/
theorem c2_witness :
    (⟨"1.2.3.4".toList, "aa:bb:cc:dd:ee:ff".toList, "x".toList⟩ : Device)
        ∈ parse_arp_output ("1.2.3.4\naa:bb:cc:dd:ee:ff x".toList)
    ∧ ∃ m pre post, m ∈ pyMatches ("1.2.3.4\naa:bb:cc:dd:ee:ff x".toList)
        ∧ (⟨"1.2.3.4".toList, "aa:bb:cc:dd:ee:ff".toList, "x".toList⟩ : Device) = mkDevice m
        ∧ ("1.2.3.4\naa:bb:cc:dd:ee:ff x".toList : List Char) = pre ++ m.seg ++ post
        ∧ (pre = [] ∨ ∃ pre2, pre = pre2 ++ ['\n'])
        ∧ (post.head? = none ∨ post.head? = some '\n') :=
  ⟨by decide, c2_match_segment ("1.2.3.4\naa:bb:cc:dd:ee:ff x".toList)
    ⟨"1.2.3.4".toList, "aa:bb:cc:dd:ee:ff".toList, "x".toList⟩ (by decide)⟩

/-- C8: a scan-result object built by the result writer from any device
list whose entries all carry the ip, mac and vendor fields passes the
schema validator with zero violations. -/
theorem c8_roundtrip (devices : List JVal) (host interfaceName ts : List Char)
    (h : ∀ d ∈ devices, deviceOk d = true) :
    validate_structure (save_results devices host interfaceName ts) = [] := by
  have herr : ∀ (i : Nat) (ds : List JVal), (∀ d ∈ ds, deviceOk d = true) →
      deviceListErrs i ds = [] := by
    intro i ds
    induction ds generalizing i with
    | nil => intro _; rfl
    | cons d ds ih =>
      intro hh
      rw [deviceListErrs]
      have hd := hh d (by simp)
      have hzero : deviceFieldErrs i d = [] := by
        cases d with
        | jobj fs =>
          simp only [deviceOk, Bool.and_eq_true] at hd
          obtain ⟨⟨hip, hmac⟩, hv⟩ := hd
          have hip2 : hasKey fs ['i', 'p'] = true := hip
          have hmac2 : hasKey fs ['m', 'a', 'c'] = true := hmac
          have hv2 : hasKey fs ['v', 'e', 'n', 'd', 'o', 'r'] = true := hv
          simp [deviceFieldErrs, deviceFields, List.filter_cons, hip2, hmac2, hv2]
        | jstr v => simp [deviceOk] at hd
        | jnum n => simp [deviceOk] at hd
        | jarr xs => simp [deviceOk] at hd
      rw [hzero, List.nil_append]
      exact ih (i + 1) (fun x hx => hh x (by simp [hx]))
  have hred : validate_structure (save_results devices host interfaceName ts)
      = deviceListErrs 0 devices := rfl
  rw [hred]
  exact herr 0 devices h

/-- C8 witness: a concrete one-device list round-trips with no
violations. -/
theorem c8_witness :
    (∀ d ∈ [JVal.jobj [("ip".toList, JVal.jstr "1.2.3.4".toList),
                       ("mac".toList, JVal.jstr "aa:bb:cc:dd:ee:ff".toList),
                       ("vendor".toList, JVal.jstr "V".toList)]], deviceOk d = true)
    ∧ validate_structure (save_results
        [JVal.jobj [("ip".toList, JVal.jstr "1.2.3.4".toList),
                    ("mac".toList, JVal.jstr "aa:bb:cc:dd:ee:ff".toList),
                    ("vendor".toList, JVal.jstr "V".toList)]]
        "pi".toList "eth0".toList "2024-01-01T00:00:00".toList) = [] :=
  ⟨by decide, c8_roundtrip _ _ _ _ (by decide)⟩

/-- C9: the validator collects every violation in one report: on an object
that lacks the host key and whose third device entry lacks the vendor
field, it reports exactly the quoted missing-host message and the
per-index device message, both in the one returned list. -/
theorem c9_collects_all_violations :
    validate_structure
      [("scan_timestamp".toList, JVal.jstr "t".toList),
       ("interface".toList, JVal.jstr "eth0".toList),
       ("devices_count".toList, JVal.jnum 3),
       ("devices".toList, JVal.jarr
         [JVal.jobj [("ip".toList, JVal.jstr "a".toList),
                     ("mac".toList, JVal.jstr "b".toList),
                     ("vendor".toList, JVal.jstr "c".toList)],
          JVal.jobj [("ip".toList, JVal.jstr "d".toList),
                     ("mac".toList, JVal.jstr "e".toList),
                     ("vendor".toList, JVal.jstr "f".toList)],
          JVal.jobj [("ip".toList, JVal.jstr "g".toList),
                     ("mac".toList, JVal.jstr "h".toList)]])]
      = ["Missing required field: ".toList ++ squote :: "host".toList ++ [squote],
         "Device ".toList ++ natToChars 2 ++ " missing field: ".toList
           ++ squote :: "vendor".toList ++ [squote]] := by
  decide

/-! ## Character-class facts used for well-formed outputs -/

theorem head_append_left {w y : List Char} (h : w ≠ []) :
    (w ++ y).head? = w.head? := by
  cases w with
  | nil => exact absurd rfl h
  | cons c cs => rfl

theorem isBlank_pyWS {c : Char} (h : isBlank c = true) : isPyWS c = true := by
  simp only [isBlank, Bool.or_eq_true, beq_iff_eq] at h
  rcases h with h | h <;> subst h <;> decide

theorem isBlank_not_digit {c : Char} (h : isBlank c = true) : c.isDigit = false := by
  simp only [isBlank, Bool.or_eq_true, beq_iff_eq] at h
  rcases h with h | h <;> subst h <;> decide

theorem hexDigit_mem {c : Char} (h : hexDigit c = true) : c ∈ hexChars := by
  have : hexChars.elem c = true := h
  exact List.elem_iff.mp this

theorem hexDigit_not_ws {c : Char} (h : hexDigit c = true) : isPyWS c = false := by
  have hmem := hexDigit_mem h
  have hall : ∀ x ∈ hexChars, isPyWS x = false := by decide
  exact hall c hmem

theorem hexDigit_lower {c : Char} (h : hexDigit c = true) :
    lowerHex (Char.toLower c) = true := by
  have hmem := hexDigit_mem h
  have hall : ∀ x ∈ hexChars, lowerHex (Char.toLower x) = true := by decide
  exact hall c hmem

theorem digit_ne_dot {c : Char} (h : c.isDigit = true) : c ≠ '.' := by
  intro hc
  rw [hc] at h
  simp at h

theorem HexPair.cases {h : List Char} (hp : HexPair h) :
    ∃ x y, h = [x, y] ∧ hexDigit x = true ∧ hexDigit y = true := by
  obtain ⟨hlen, hall⟩ := hp
  match h, hlen with
  | [x, y], _ =>
    exact ⟨x, y, rfl, hall x (by simp), hall y (by simp)⟩

/-! ## Matching a well-formed device line -/

theorem matchOctet_exact {a r : List Char} (ha : OctOk a)
    (hr : ∀ c, r.head? = some c → c.isDigit = false) :
    matchOctet (a ++ r) = some (a, r) := by
  obtain ⟨hne, hlen, hdig, _⟩ := ha
  unfold matchOctet
  rw [takeWhile_append_span hdig hr, dropWhile_append_span hdig hr]
  rw [if_neg ?_]
  push_neg
  refine ⟨?_, hlen⟩
  intro h0
  exact hne (List.eq_nil_of_length_eq_zero h0)

theorem parseQuad_deviceLine {ip : List Char} (hip : IpOkP ip) {rest : List Char}
    (hrest : ∀ c, rest.head? = some c → c.isDigit = false) :
    parseQuad (ip ++ rest) = some (ip, rest) := by
  obtain ⟨a, b, c, d, hipeq, ha, hb, hc, hd⟩ := hip
  subst hipeq
  have hdot : ∀ (y : List Char) (c' : Char), ('.' :: y).head? = some c' → c'.isDigit = false := by
    intro y c' hc'
    simp only [List.head?_cons, Option.some.injEq] at hc'
    subst hc'
    decide
  have h1 : matchOctet (a ++ ('.' :: (b ++ '.' :: (c ++ '.' :: (d ++ rest)))))
      = some (a, '.' :: (b ++ '.' :: (c ++ '.' :: (d ++ rest)))) :=
    matchOctet_exact ha (hdot _)
  have h2 : expectChar '.' ('.' :: (b ++ '.' :: (c ++ '.' :: (d ++ rest))))
      = some (b ++ '.' :: (c ++ '.' :: (d ++ rest))) := by simp [expectChar]
  have h3 : matchOctet (b ++ ('.' :: (c ++ '.' :: (d ++ rest))))
      = some (b, '.' :: (c ++ '.' :: (d ++ rest))) :=
    matchOctet_exact hb (hdot _)
  have h4 : expectChar '.' ('.' :: (c ++ '.' :: (d ++ rest)))
      = some (c ++ '.' :: (d ++ rest)) := by simp [expectChar]
  have h5 : matchOctet (c ++ ('.' :: (d ++ rest)))
      = some (c, '.' :: (d ++ rest)) :=
    matchOctet_exact hc (hdot _)
  have h6 : expectChar '.' ('.' :: (d ++ rest)) = some (d ++ rest) := by simp [expectChar]
  have h7 : matchOctet (d ++ rest) = some (d, rest) := matchOctet_exact hd hrest
  have hassoc : (a ++ '.' :: b ++ '.' :: c ++ '.' :: d) ++ rest
      = a ++ ('.' :: (b ++ '.' :: (c ++ '.' :: (d ++ rest)))) := by simp
  rw [hassoc]
  unfold parseQuad
  rw [h1, Option.some_bind]
  dsimp only
  rw [h2, Option.some_bind, h3, Option.some_bind]
  dsimp only
  rw [h4, Option.some_bind, h5, Option.some_bind]
  dsimp only
  rw [h6, Option.some_bind, h7, Option.map_some']

theorem matchAt_deviceLine {ip w1 mac w2 v r : List Char}
    (hip : IpOkP ip) (hw1 : BlankRun w1) (hmac : MacOkP mac) (hw2 : BlankRun w2)
    (hv : VendorOkP v) (hr : r.head? = none ∨ r.head? = some '\n') :
    matchAt (ip ++ w1 ++ mac ++ w2 ++ v ++ r)
      = some (⟨ip, w1, mac, w2, v⟩, r) := by
  obtain ⟨hw1ne, hw1all⟩ := hw1
  obtain ⟨hw2ne, hw2all⟩ := hw2
  obtain ⟨hvne, hvnl, hvhead⟩ := hv
  obtain ⟨h1, h2, h3, h4, h5, h6, hmaceq, hp1, hp2, hp3, hp4, hp5, hp6⟩ :=
    (by exact hmac : MacOkP mac)
  obtain ⟨x1, y1, he1, hx1, hy1⟩ := hp1.cases
  obtain ⟨x2, y2, he2, hx2, hy2⟩ := hp2.cases
  obtain ⟨x3, y3, he3, hx3, hy3⟩ := hp3.cases
  obtain ⟨x4, y4, he4, hx4, hy4⟩ := hp4.cases
  obtain ⟨x5, y5, he5, hx5, hy5⟩ := hp5.cases
  obtain ⟨x6, y6, he6, hx6, hy6⟩ := hp6.cases
  have hmacexp : mac = [x1, y1, ':', x2, y2, ':', x3, y3, ':',
      x4, y4, ':', x5, y5, ':', x6, y6] := by
    rw [hmaceq, he1, he2, he3, he4, he5, he6]
    rfl
  have hmachead : ∀ c, mac.head? = some c → hexDigit c = true := by
    intro c hc
    rw [hmacexp] at hc
    simp only [List.head?_cons, Option.some.injEq] at hc
    subst hc
    exact hx1
  have hmaclen : mac.length = 17 := by rw [hmacexp]; rfl
  have hcolon : isMacChar ':' = true := by decide
  have hmacall : mac.all isMacChar = true := by
    rw [hmacexp]
    simp [List.all_cons, isMacChar, hcolon, hx1, hy1, hx2, hy2, hx3, hy3,
      hx4, hy4, hx5, hy5, hx6, hy6]
  -- the tail after the ip group
  have hq : parseQuad (ip ++ w1 ++ mac ++ w2 ++ v ++ r)
      = some (ip, w1 ++ (mac ++ w2 ++ v ++ r)) := by
    have hhd : ∀ c, (w1 ++ (mac ++ w2 ++ v ++ r)).head? = some c → c.isDigit = false := by
      intro c hc
      rw [head_append_left hw1ne] at hc
      cases w1 with
      | nil => exact absurd rfl hw1ne
      | cons cw ws =>
        simp only [List.head?_cons, Option.some.injEq] at hc
        subst hc
        exact isBlank_not_digit (hw1all cw (by simp))
    have hpd := parseQuad_deviceLine hip hhd
    rw [← hpd]
    congr 1
    simp [List.append_assoc]
  unfold matchAt
  rw [hq, Option.some_bind]
  dsimp only
  have hwspan : (w1 ++ (mac ++ w2 ++ v ++ r)).takeWhile isPyWS = w1
      ∧ (w1 ++ (mac ++ w2 ++ v ++ r)).dropWhile isPyWS = mac ++ w2 ++ v ++ r := by
    have hh : ∀ c, (mac ++ w2 ++ v ++ r).head? = some c → isPyWS c = false := by
      intro c hc
      rw [show mac ++ w2 ++ v ++ r = mac ++ (w2 ++ v ++ r) by simp,
        head_append_left (by rw [hmaceq, he1]; simp)] at hc
      exact hexDigit_not_ws (hmachead c hc)
    exact ⟨takeWhile_append_span (fun c hc => isBlank_pyWS (hw1all c hc)) hh,
      dropWhile_append_span (fun c hc => isBlank_pyWS (hw1all c hc)) hh⟩
  rw [hwspan.1, hwspan.2, if_neg hw1ne]
  have htake : (mac ++ w2 ++ v ++ r).take 17 = mac := by
    rw [show mac ++ w2 ++ v ++ r = mac ++ (w2 ++ v ++ r) by simp, ← hmaclen,
      List.take_left]
  have hdrop : (mac ++ w2 ++ v ++ r).drop 17 = w2 ++ v ++ r := by
    rw [show mac ++ w2 ++ v ++ r = mac ++ (w2 ++ v ++ r) by simp, ← hmaclen,
      List.drop_left]
  rw [htake, hdrop, if_pos ⟨by rw [hmaclen], hmacall⟩]
  have htail : matchTail (w2 ++ v ++ r) = some (w2, v, r) := by
    have hvr : ∀ c, (v ++ r).head? = some c → isPyWS c = false := by
      intro c hc
      rw [head_append_left hvne] at hc
      exact hvhead c hc
    have htw : (w2 ++ v ++ r).takeWhile isPyWS = w2 := by
      rw [show w2 ++ v ++ r = w2 ++ (v ++ r) by simp]
      exact takeWhile_append_span (fun c hc => isBlank_pyWS (hw2all c hc)) hvr
    have hdw : (w2 ++ v ++ r).dropWhile isPyWS = v ++ r := by
      rw [show w2 ++ v ++ r = w2 ++ (v ++ r) by simp]
      exact dropWhile_append_span (fun c hc => isBlank_pyWS (hw2all c hc)) hvr
    have hrnl : ∀ c, r.head? = some c → notNl c = false := by
      intro c hc
      rcases hr with h | h
      · rw [h] at hc; cases hc
      · rw [h] at hc
        simp only [Option.some.injEq] at hc
        subst hc
        decide
    have hvv : ∀ c ∈ v, notNl c = true := by
      intro c hc
      simp [notNl, hvnl c hc]
    unfold matchTail
    rw [htw, hdw, if_neg hw2ne]
    have hvrne : v ++ r ≠ [] := by
      cases v with
      | nil => exact absurd rfl hvne
      | cons cv vs => simp
    rw [if_neg hvrne]
    rw [takeWhile_append_span hvv hrnl, dropWhile_append_span hvv hrnl]
  rw [htail, Option.map_some']

/-! ## Lines that do not start with the quad shape never start a match -/

theorem matchOctet_ext_none {l t : List Char} (h : matchOctet l = none) :
    matchOctet (l ++ '\n' :: t) = none := by
  unfold matchOctet at h ⊢
  rw [takeWhile_append_nl (by decide) l t]
  by_cases hc : (l.takeWhile Char.isDigit).length = 0 ∨ 3 < (l.takeWhile Char.isDigit).length
  · rw [if_pos hc]
  · rw [if_neg hc] at h
    exact absurd h (by simp)

theorem matchOctet_ext_some {l t d r : List Char} (h : matchOctet l = some (d, r)) :
    matchOctet (l ++ '\n' :: t) = some (d, r ++ '\n' :: t) := by
  unfold matchOctet at h ⊢
  rw [takeWhile_append_nl (by decide) l t, dropWhile_append_nl (by decide) l t]
  by_cases hc : (l.takeWhile Char.isDigit).length = 0 ∨ 3 < (l.takeWhile Char.isDigit).length
  · rw [if_pos hc] at h
    exact absurd h (by simp)
  · rw [if_neg hc] at h ⊢
    simp only [Option.some.injEq, Prod.mk.injEq] at h
    rw [h.1, h.2]

theorem expectChar_ext_none {ch : Char} (hch : ('\n' : Char) ≠ ch) {l t : List Char}
    (h : expectChar ch l = none) : expectChar ch (l ++ '\n' :: t) = none := by
  cases l with
  | nil => simp [expectChar, hch]
  | cons x xs =>
    simp only [expectChar] at h
    by_cases hx : x = ch
    · rw [if_pos hx] at h; cases h
    · simp [expectChar, hx]

theorem expectChar_ext_some {ch : Char} {l t r : List Char}
    (h : expectChar ch l = some r) : expectChar ch (l ++ '\n' :: t) = some (r ++ '\n' :: t) := by
  cases l with
  | nil => simp [expectChar] at h
  | cons x xs =>
    simp only [expectChar] at h
    by_cases hx : x = ch
    · rw [if_pos hx] at h
      simp only [Option.some.injEq] at h
      subst h
      simp [expectChar, hx]
    · rw [if_neg hx] at h; cases h

theorem parseQuad_ext_none {l t : List Char} (h : parseQuad l = none) :
    parseQuad (l ++ '\n' :: t) = none := by
  unfold parseQuad at h ⊢
  cases ha : matchOctet l with
  | none => rw [matchOctet_ext_none ha]; rfl
  | some ar =>
    obtain ⟨a, r1⟩ := ar
    rw [ha, Option.some_bind] at h
    rw [matchOctet_ext_some ha, Option.some_bind]
    dsimp only at h ⊢
    cases hb : expectChar '.' r1 with
    | none => rw [expectChar_ext_none (by decide) hb]; rfl
    | some r2 =>
      rw [hb, Option.some_bind] at h
      rw [expectChar_ext_some hb, Option.some_bind]
      cases hc : matchOctet r2 with
      | none => rw [matchOctet_ext_none hc]; rfl
      | some br =>
        obtain ⟨b, r3⟩ := br
        rw [hc, Option.some_bind] at h
        rw [matchOctet_ext_some hc, Option.some_bind]
        dsimp only at h ⊢
        cases hd : expectChar '.' r3 with
        | none => rw [expectChar_ext_none (by decide) hd]; rfl
        | some r4 =>
          rw [hd, Option.some_bind] at h
          rw [expectChar_ext_some hd, Option.some_bind]
          cases he : matchOctet r4 with
          | none => rw [matchOctet_ext_none he]; rfl
          | some cr =>
            obtain ⟨c, r5⟩ := cr
            rw [he, Option.some_bind] at h
            rw [matchOctet_ext_some he, Option.some_bind]
            dsimp only at h ⊢
            cases hf : expectChar '.' r5 with
            | none => rw [expectChar_ext_none (by decide) hf]; rfl
            | some r6 =>
              rw [hf, Option.some_bind] at h
              rw [expectChar_ext_some hf, Option.some_bind]
              cases hg : matchOctet r6 with
              | none => rw [matchOctet_ext_none hg]; rfl
              | some dr =>
                rw [hg] at h
                exact absurd h (by simp)

theorem matchAt_none {s : List Char} (h : parseQuad s = none) : matchAt s = none := by
  unfold matchAt
  rw [h]
  rfl

theorem findMatchesF_match {s : List Char} {mt : RawMatch} {r : List Char} (f : Nat)
    (hf : s.length < f) (hma : matchAt s = some (mt, r)) :
    findMatchesF f s true = mt :: findMatchesF (f - 1) r false := by
  cases s with
  | nil =>
    rw [show matchAt ([] : List Char) = none from rfl] at hma
    cases hma
  | cons c rest =>
    cases f with
    | zero => omega
    | succ g =>
      rw [findMatchesF_cons_true, hma]
      simp

theorem findMatchesF_newline (f : Nat) (t : List Char) (hf : 0 < f) :
    findMatchesF f ('\n' :: t) false = findMatchesF (f - 1) t true := by
  cases f with
  | zero => omega
  | succ g =>
    rw [findMatchesF_cons_false]
    simp

/-- On a well-formed output, every match found by the scan carries a valid
dotted-quad ip group and a valid colon-separated MAC group. -/
theorem wf_matches : ∀ (ls : List (List Char)), (∀ l ∈ ls, LineOk l) →
    ∀ f, (joinLines ls).length < f →
    ∀ m ∈ findMatchesF f (joinLines ls) true, IpOkP m.ipCs ∧ MacOkP m.macCs := by
  intro ls
  induction ls with
  | nil =>
    intro _ f _ m hm
    rw [show joinLines [] = [] from rfl, findMatchesF_nil] at hm
    simp at hm
  | cons l ls ih =>
    intro hok f hf m hm
    cases ls with
    | nil =>
      rw [show joinLines [l] = l from rfl] at hm hf
      obtain ⟨hnl, hdev | hban⟩ := hok l (by simp)
      · obtain ⟨ip, w1, mac, w2, v, hleq, hip, hw1, hmac, hw2, hv⟩ := hdev
        have hma : matchAt l = some (⟨ip, w1, mac, w2, v⟩, []) := by
          have hdl := matchAt_deviceLine hip hw1 hmac hw2 hv (r := []) (Or.inl rfl)
          rw [hleq, ← hdl]
          congr 1
          simp
        rw [findMatchesF_match f hf hma, findMatchesF_nil] at hm
        rcases List.mem_cons.mp hm with hg | hg
        · subst hg; exact ⟨hip, hmac⟩
        · simp at hg
      · cases l with
        | nil =>
          rw [findMatchesF_nil] at hm
          simp at hm
        | cons c x =>
          cases f with
          | zero => omega
          | succ g =>
            rw [findMatchesF_cons_true, matchAt_none hban] at hm
            have hc : (c == '\n') = false := by simp [hnl c (by simp)]
            rw [hc, findMatchesF_walk (fun d hd => hnl d (by simp [hd])) g] at hm
            simp at hm
    | cons l2 ls2 =>
      rw [show joinLines (l :: l2 :: ls2) = l ++ '\n' :: joinLines (l2 :: ls2)
        from rfl] at hm hf
      obtain ⟨hnl, hdev | hban⟩ := hok l (by simp)
      · obtain ⟨ip, w1, mac, w2, v, hleq, hip, hw1, hmac, hw2, hv⟩ := hdev
        have hipne : ip ≠ [] := by
          obtain ⟨a, b, c, d, he, _, _, _, _⟩ := hip
          rw [he]
          intro hcon
          simp at hcon
        have hlne : 1 ≤ l.length := by
          rw [hleq]
          cases hi : ip with
          | nil => exact absurd hi hipne
          | cons z zs => simp
        have hma : matchAt (l ++ '\n' :: joinLines (l2 :: ls2))
            = some (⟨ip, w1, mac, w2, v⟩, '\n' :: joinLines (l2 :: ls2)) := by
          have hdl := matchAt_deviceLine hip hw1 hmac hw2 hv
            (r := '\n' :: joinLines (l2 :: ls2)) (Or.inr rfl)
          rw [hleq, ← hdl]
        rw [findMatchesF_match f hf hma] at hm
        rcases List.mem_cons.mp hm with hg | hg
        · subst hg; exact ⟨hip, hmac⟩
        · have hflen : (joinLines (l2 :: ls2)).length + 1 < f - 1 := by
            rw [List.length_append] at hf
            simp only [List.length_cons] at hf
            omega
          rw [findMatchesF_newline (f - 1) _ (by omega)] at hg
          have heq2 : f - 1 - 1 = f - 2 := by omega
          rw [heq2] at hg
          exact ih (fun y hy => hok y (by simp [hy])) (f - 2) (by omega) m hg
      · cases l with
        | nil =>
          cases f with
          | zero => simp at hf
          | succ g =>
            simp only [List.nil_append] at hm
            rw [findMatchesF_cons_true] at hm
            have hmo : matchOctet ('\n' :: joinLines (l2 :: ls2)) = none := by
              unfold matchOctet
              rw [List.takeWhile_cons_of_neg (by decide)]
              simp
            have hma : matchAt ('\n' :: joinLines (l2 :: ls2)) = none := by
              apply matchAt_none
              unfold parseQuad
              rw [hmo]
              rfl
            rw [hma, show (('\n' : Char) == '\n') = true from rfl] at hm
            refine ih (fun y hy => hok y (by simp [hy])) g ?_ m hm
            simp only [List.nil_append, List.length_cons] at hf
            omega
        | cons c x =>
          cases f with
          | zero => simp at hf
          | succ g =>
            rw [List.cons_append, findMatchesF_cons_true] at hm
            have hma : matchAt (c :: (x ++ '\n' :: joinLines (l2 :: ls2))) = none := by
              have := matchAt_none (parseQuad_ext_none (t := joinLines (l2 :: ls2)) hban)
              rwa [List.cons_append] at this
            rw [hma] at hm
            have hc : (c == '\n') = false := by simp [hnl c (by simp)]
            rw [hc] at hm
            have hlen1 : (x ++ '\n' :: joinLines (l2 :: ls2)).length < g := by
              rw [List.length_append] at hf ⊢
              simp only [List.length_cons] at hf ⊢
              omega
            rw [findMatchesF_irrel g
              (x.length + (((joinLines (l2 :: ls2)).length + 1) + 1)) hlen1
              (by rw [List.length_append]; simp)] at hm
            rw [findMatchesF_skipline (joinLines (l2 :: ls2))
              (fun d hd => hnl d (by simp [hd])) ((joinLines (l2 :: ls2)).length + 1)] at hm
            exact ih (fun y hy => hok y (by simp [hy]))
              ((joinLines (l2 :: ls2)).length + 1) (by omega) m hm

/-! ## From the well-formed pieces to the spec shapes -/

theorem splitOnChAux_cons (sep c : Char) (rest cur : List Char) :
    splitOnChAux sep (c :: rest) cur
      = if c = sep then cur.reverse :: splitOnChAux sep rest []
        else splitOnChAux sep rest (c :: cur) := rfl

theorem splitOnChAux_no_sep {sep : Char} : ∀ {x : List Char}, (∀ c ∈ x, c ≠ sep) →
    ∀ cur, splitOnChAux sep x cur = [cur.reverse ++ x] := by
  intro x
  induction x with
  | nil => intro _ cur; simp [splitOnChAux]
  | cons c x ih =>
    intro hx cur
    rw [splitOnChAux_cons, if_neg (hx c (by simp)), ih (fun d hd => hx d (by simp [hd]))]
    simp

theorem splitOnChAux_sep {sep : Char} : ∀ {x : List Char}, (∀ c ∈ x, c ≠ sep) →
    ∀ rest cur, splitOnChAux sep (x ++ sep :: rest) cur
      = (cur.reverse ++ x) :: splitOnChAux sep rest [] := by
  intro x
  induction x with
  | nil => intro _ rest cur; simp [splitOnChAux_cons]
  | cons c x ih =>
    intro hx rest cur
    rw [List.cons_append, splitOnChAux_cons, if_neg (hx c (by simp)),
      ih (fun d hd => hx d (by simp [hd]))]
    simp

theorem splitDot_quad {a b c d : List Char}
    (ha : ∀ x ∈ a, x ≠ '.') (hb : ∀ x ∈ b, x ≠ '.')
    (hc : ∀ x ∈ c, x ≠ '.') (hd : ∀ x ∈ d, x ≠ '.') :
    splitDot (a ++ '.' :: b ++ '.' :: c ++ '.' :: d) = [a, b, c, d] := by
  unfold splitDot splitOnCh
  rw [show a ++ '.' :: b ++ '.' :: c ++ '.' :: d
      = a ++ '.' :: (b ++ '.' :: (c ++ '.' :: d)) from by simp]
  rw [splitOnChAux_sep ha, splitOnChAux_sep hb, splitOnChAux_sep hc,
    splitOnChAux_no_sep hd]
  simp

theorem octShape_of_OctOk {x : List Char} (hx : OctOk x) : octShape x = true := by
  obtain ⟨hne, hlen, hdig, hval⟩ := hx
  have hemp : x.isEmpty = false := by
    cases x with
    | nil => exact absurd rfl hne
    | cons y ys => rfl
  simp [octShape, hemp, hlen, hval, List.all_eq_true]
  exact hdig

theorem ipShape_of_IpOk {ip : List Char} (h : IpOkP ip) : ipShape ip = true := by
  obtain ⟨a, b, c, d, he, ha, hb, hc, hd⟩ := h
  have hnd : ∀ {x : List Char}, OctOk x → ∀ ch ∈ x, ch ≠ '.' :=
    fun hx ch hch => digit_ne_dot (hx.2.2.1 ch hch)
  rw [he]
  unfold ipShape
  rw [splitDot_quad (hnd ha) (hnd hb) (hnd hc) (hnd hd)]
  simp [octShape_of_OctOk ha, octShape_of_OctOk hb, octShape_of_OctOk hc,
    octShape_of_OctOk hd]

theorem macShape_of_MacOk {mac : List Char} (h : MacOkP mac) :
    macShape (mac.map Char.toLower) = true := by
  obtain ⟨h1, h2, h3, h4, h5, h6, he, hp1, hp2, hp3, hp4, hp5, hp6⟩ := h
  obtain ⟨x1, y1, he1, hx1, hy1⟩ := hp1.cases
  obtain ⟨x2, y2, he2, hx2, hy2⟩ := hp2.cases
  obtain ⟨x3, y3, he3, hx3, hy3⟩ := hp3.cases
  obtain ⟨x4, y4, he4, hx4, hy4⟩ := hp4.cases
  obtain ⟨x5, y5, he5, hx5, hy5⟩ := hp5.cases
  obtain ⟨x6, y6, he6, hx6, hy6⟩ := hp6.cases
  have hexp : mac = [x1, y1, ':', x2, y2, ':', x3, y3, ':',
      x4, y4, ':', x5, y5, ':', x6, y6] := by
    rw [he, he1, he2, he3, he4, he5, he6]
    rfl
  rw [hexp]
  simp only [List.map_cons, List.map_nil]
  rw [show Char.toLower ':' = ':' from rfl]
  simp [macShape, hexDigit_lower hx1, hexDigit_lower hy1, hexDigit_lower hx2,
    hexDigit_lower hy2, hexDigit_lower hx3, hexDigit_lower hy3,
    hexDigit_lower hx4, hexDigit_lower hy4, hexDigit_lower hx5,
    hexDigit_lower hy5, hexDigit_lower hx6, hexDigit_lower hy6]

/-- C1: on a well-formed scan-tool output, every emitted record has a mac
of the 6-octet lowercase-hex-colon shape and an ip made of four
dot-separated integers, each between 0 and 255. -/
theorem c1_wellformed_shapes : ∀ s : List Char, WellFormed s →
    ∀ d ∈ parse_arp_output s, macShape d.mac = true ∧ ipShape d.ip = true := by
  intro s hwf d hd
  obtain ⟨ls, hjoin, hok⟩ := hwf
  obtain ⟨m, hm, _, hdm⟩ := mem_parse hd
  have hms : IpOkP m.ipCs ∧ MacOkP m.macCs := by
    subst hjoin
    exact wf_matches ls hok ((joinLines ls).length + 1) (by omega) m hm
  subst hdm
  exact ⟨macShape_of_MacOk hms.2, ipShape_of_IpOk hms.1⟩

/-- C1 witness: a realistic well-formed output (banner line, one device
line, statistics line) whose single record has the required shapes. -/
theorem c1_witness :
    WellFormed
      ("Interface: eth0\n192.168.1.7\t3c:22:fb:99:aa:01\tApple, Inc.\n2 packets received".toList)
    ∧ (⟨"192.168.1.7".toList, "3c:22:fb:99:aa:01".toList, "Apple, Inc.".toList⟩ : Device)
        ∈ parse_arp_output
          ("Interface: eth0\n192.168.1.7\t3c:22:fb:99:aa:01\tApple, Inc.\n2 packets received".toList)
    ∧ macShape ("3c:22:fb:99:aa:01".toList) = true
    ∧ ipShape ("192.168.1.7".toList) = true := by
  have hv3 : ∀ c : Char, ("Apple, Inc.".toList).head? = some c → isPyWS c = false := by
    intro c hc
    have hc2 : some 'A' = some c := hc
    injection hc2 with h
    subst h
    decide
  have hdev : DeviceLineOk ("192.168.1.7\t3c:22:fb:99:aa:01\tApple, Inc.".toList) :=
    ⟨"192.168.1.7".toList, ['\t'], "3c:22:fb:99:aa:01".toList, ['\t'], "Apple, Inc.".toList,
      by decide,
      ⟨"192".toList, "168".toList, "1".toList, "7".toList, by decide,
        by unfold OctOk; decide, by unfold OctOk; decide,
        by unfold OctOk; decide, by unfold OctOk; decide⟩,
      ⟨by decide, by decide⟩,
      ⟨"3c".toList, "22".toList, "fb".toList, "99".toList, "aa".toList, "01".toList,
        by decide, by unfold HexPair; decide, by unfold HexPair; decide,
        by unfold HexPair; decide, by unfold HexPair; decide,
        by unfold HexPair; decide, by unfold HexPair; decide⟩,
      ⟨by decide, by decide⟩,
      ⟨by decide, by decide, hv3⟩⟩
  have hwf : WellFormed
      ("Interface: eth0\n192.168.1.7\t3c:22:fb:99:aa:01\tApple, Inc.\n2 packets received".toList) := by
    refine ⟨["Interface: eth0".toList,
      "192.168.1.7\t3c:22:fb:99:aa:01\tApple, Inc.".toList,
      "2 packets received".toList], by decide, ?_⟩
    intro l hl
    rcases List.mem_cons.mp hl with h | hl2
    · subst h
      exact ⟨by decide, Or.inr (by decide)⟩
    rcases List.mem_cons.mp hl2 with h | hl3
    · subst h
      exact ⟨by decide, Or.inl hdev⟩
    rcases List.mem_cons.mp hl3 with h | hl4
    · subst h
      exact ⟨by decide, Or.inr (by decide)⟩
    · simp at hl4
  exact ⟨hwf, by decide,
    c1_wellformed_shapes _ hwf
      ⟨"192.168.1.7".toList, "3c:22:fb:99:aa:01".toList, "Apple, Inc.".toList⟩ (by decide)⟩
